import Mathlib

/-!
Verification development for the go-env environment-variable marshalling
library (package env).  The struct converter is embedded from
src/unnamed/part_002 (Unmarshal, set, Marshal over an EnvSet with key
consumption and pointer support); the flat-map transform is embedded from
the envset source (EnvironToEnvSet, EnvSetToEnviron).  Go maps are
modelled as association lists with unique keys; Go strings are Lean
strings, except in the flat-map transform where splitting and joining on
the first equals sign needs character lists.
-/

namespace GoEnv

/-- Go strconv.ParseBool: accepts 1, t, T, TRUE, true, True for true and
0, f, F, FALSE, false, False for false; anything else is a syntax error
(modelled as none). Called by the set function of the converter. -/
def parseBool (str : String) : Option Bool :=
  if str = "1" ∨ str = "t" ∨ str = "T" ∨ str = "TRUE" ∨ str = "true" ∨ str = "True" then
    some true
  else if str = "0" ∨ str = "f" ∨ str = "F" ∨ str = "FALSE" ∨ str = "false" ∨ str = "False" then
    some false
  else
    none

/-- Numeric value of an ASCII digit character. -/
def digitVal (c : Char) : Nat := c.toNat - 48

/-- Parse a nonempty all-digit character list as a base-10 natural number
(the digit loop of Go strconv.ParseInt). -/
def parseNatDigits (cs : List Char) : Option Nat :=
  if cs.isEmpty then none
  else if cs.all Char.isDigit then
    some (cs.foldl (fun a c => a * 10 + digitVal c) 0)
  else none

/-- Character-level body of Go strconv.Atoi: an optional single leading
sign followed by one or more decimal digits, and the value must fit in a
signed 64-bit integer; anything else is an error (modelled as none). -/
def atoiChars : List Char → Option Int
  | [] => none
  | c :: cs =>
    if c = '-' then
      match parseNatDigits cs with
      | none => none
      | some n => if (n : Int) ≤ 2 ^ 63 then some (-(n : Int)) else none
    else if c = '+' then
      match parseNatDigits cs with
      | none => none
      | some n => if (n : Int) < 2 ^ 63 then some ((n : Int)) else none
    else
      match parseNatDigits (c :: cs) with
      | none => none
      | some n => if (n : Int) < 2 ^ 63 then some ((n : Int)) else none

/-- Go strconv.Atoi (equivalently ParseInt base 10, bit size of int = 64).
Called by the set function of the converter. -/
def atoi (s : String) : Option Int :=
  atoiChars s.data

/-- ASCII character of a decimal digit. -/
def digitChar (d : Nat) : Char := Char.ofNat (48 + d)

/-- Decimal digit characters of a positive natural number, most
significant first; the first argument is recursion fuel, sufficient
whenever it bounds the number. -/
def natToCharsFuel : Nat → Nat → List Char
  | 0, _ => []
  | fuel + 1, n =>
    if n = 0 then [] else natToCharsFuel fuel (n / 10) ++ [digitChar (n % 10)]

/-- Decimal digit characters of a natural number, most significant first
(the %v rendering of a nonnegative integer). -/
def natToChars (n : Nat) : List Char :=
  if n = 0 then [digitChar 0] else natToCharsFuel n n

/-- Go fmt.Sprintf with verb %v applied to a signed integer: decimal
digits with a leading minus sign for negative values. -/
def itoa (n : Int) : String :=
  if n < 0 then String.mk ('-' :: natToChars n.natAbs)
  else String.mk (natToChars n.toNat)

/-- Go map of string to string (the EnvSet of the converter), modelled as
an association list; the Go map invariant of unique keys is stated where
a theorem needs it. -/
abbrev EnvSet := List (String × String)

/-- Go map read m[k] with ok flag: first binding of the key, if any. -/
def lookupEnv : EnvSet → String → Option String
  | [], _ => none
  | (k, v) :: es, key => if k = key then some v else lookupEnv es key

/-- Go built-in delete(m, k): removes the binding of the key. -/
def deleteEnv : EnvSet → String → EnvSet
  | [], _ => []
  | (k, v) :: es, key => if k = key then deleteEnv es key else (k, v) :: deleteEnv es key

/-- Go map write m[k] = v: replaces the binding in place or appends a new
one. -/
def insertEnv : EnvSet → String → String → EnvSet
  | [], key, val => [(key, val)]
  | (k, v) :: es, key, val =>
    if k = key then (key, val) :: es else (k, v) :: insertEnv es key val

mutual

/-- Go types of struct fields, as dispatched on by the kind switches of
set, Unmarshal and Marshal in src/unnamed/part_002: string, bool, int,
pointer, nested struct, and a constructor standing for every other kind
(which the converter supports in no direction). -/
inductive Ty where
  | str : Ty
  | boolean : Ty
  | int : Ty
  | ptr : Ty → Ty
  | strct : Fields → Ty
  | unsupported : Ty

/-- Shape of a Go struct: for each field in declaration order, its env
tag (empty string when the field carries no env tag), whether the field
is exported (reflect CanSet on an addressable value, and CanInterface of
the field address, both reduce to the field being exported), and its
type. -/
inductive Fields where
  | nil : Fields
  | cons (tag : String) (exported : Bool) (ty : Ty) (rest : Fields) : Fields

end

mutual

/-- Runtime value of a Go field: string, bool, int, nil pointer, non-nil
pointer to a value, struct value, or a value of an unsupported kind. -/
inductive Val where
  | vstr : String → Val
  | vbool : Bool → Val
  | vint : Int → Val
  | vnil : Val
  | vptr : Val → Val
  | vstrct : Vals → Val
  | vunsup : Val

/-- Field values of a struct, in declaration order. -/
inductive Vals where
  | nil : Vals
  | cons : Val → Vals → Vals

end

mutual

/-- Go zero value of a type (reflect.New yields a pointer to this). -/
def zeroVal : Ty → Val
  | Ty.str => Val.vstr ""
  | Ty.boolean => Val.vbool false
  | Ty.int => Val.vint 0
  | Ty.ptr _ => Val.vnil
  | Ty.strct fs => Val.vstrct (zeroVals fs)
  | Ty.unsupported => Val.vunsup

/-- Zero values of all fields of a struct shape. -/
def zeroVals : Fields → Vals
  | Fields.nil => Vals.nil
  | Fields.cons _ _ t rest => Vals.cons (zeroVal t) (zeroVals rest)

end

mutual

/-- Does a value have the given type.  Go typing guarantees this for a
reflect value and its reflect type; theorems assume it where needed. -/
def ValMatches : Ty → Val → Bool
  | Ty.str, Val.vstr _ => true
  | Ty.boolean, Val.vbool _ => true
  | Ty.int, Val.vint _ => true
  | Ty.ptr _, Val.vnil => true
  | Ty.ptr t, Val.vptr v => ValMatches t v
  | Ty.strct fs, Val.vstrct vs => ValsMatch fs vs
  | Ty.unsupported, Val.vunsup => true
  | _, _ => false

/-- Do struct field values match a struct shape, pointwise. -/
def ValsMatch : Fields → Vals → Bool
  | Fields.nil, Vals.nil => true
  | Fields.cons _ _ t rest, Vals.cons v vs => ValMatches t v && ValsMatch rest vs
  | _, _ => false

end

/-- Errors of the env package: ErrInvalidValue, ErrUnsupportedType,
ErrUnexportedField, ErrMissingRequiredValue carrying the offending key,
the underlying strconv parse errors (carrying the offending input), and
ErrInvalidEnviron of the flat-map transform. -/
inductive Err where
  | invalidValue : Err
  | unsupportedType : Err
  | unexportedField : Err
  | missingRequiredValue : String → Err
  | numError : String → Err
  | invalidEnviron : Err
deriving DecidableEq, Repr

/-- The set function of src/unnamed/part_002 (lines 102 to 131): writes a
parsed value into a field of the given type, or fails.  The pointer case
allocates a fresh zero pointee with reflect.New, recursively sets it and
stores the pointer; strings are stored verbatim; bool and int go through
strconv.ParseBool and strconv.Atoi; every other kind (including structs,
which reach set only when a struct field carries an env tag) returns
ErrUnsupportedType.  Modelled functionally: the result is the value the
field holds after the call. -/
def set : Ty → String → Except Err Val
  | Ty.ptr t, value =>
    match set t value with
    | Except.error e => Except.error e
    | Except.ok v => Except.ok (Val.vptr v)
  | Ty.str, value => Except.ok (Val.vstr value)
  | Ty.boolean, value =>
    match parseBool value with
    | none => Except.error (Err.numError value)
    | some b => Except.ok (Val.vbool b)
  | Ty.int, value =>
    match atoi value with
    | none => Except.error (Err.numError value)
    | some n => Except.ok (Val.vint n)
  | Ty.strct _, _ => Except.error Err.unsupportedType
  | Ty.unsupported, _ => Except.error Err.unsupportedType

/-- Outcome of processing one field of Unmarshal: move to the next field
with the updated mapping and field value, or abort with an error. -/
inductive StepRes where
  | next (es : EnvSet) (v : Val) : StepRes
  | fail (es : EnvSet) (v : Val) (e : Err) : StepRes

/-- Tag handling of one field of Unmarshal (src/unnamed/part_002 lines 77
to 96), after the struct-kind switch: skip untagged fields, fail on a
tagged unexported field, skip when the key is absent, otherwise set the
field and on success delete the consumed key from the mapping. -/
def tagStep (es : EnvSet) (tag : String) (exported : Bool) (t : Ty) (v : Val) : StepRes :=
  if tag = "" then StepRes.next es v
  else if exported = false then StepRes.fail es v Err.unexportedField
  else
    match lookupEnv es tag with
    | none => StepRes.next es v
    | some envVar =>
      match set t envVar with
      | Except.error e => StepRes.fail es v e
      | Except.ok v2 => StepRes.next (deleteEnv es tag) v2

/-- Field loop of Unmarshal (src/unnamed/part_002 lines 61 to 99),
threading the mapping and the field values and stopping at the first
error, as the Go loop does by returning while earlier mutations to the
struct and the mapping persist.  A struct-kind field is recursed into
first when its address can be interfaced (continue skips the whole field
otherwise), then its tag is processed like any other field.  The case of
field values not matching the shape cannot arise for a reflect value and
is mapped to an immediate success. -/
def unmarshalFields : EnvSet → Fields → Vals → EnvSet × Vals × Option Err
  | es, Fields.nil, vs => (es, vs, none)
  | es, Fields.cons _ _ _ _, Vals.nil => (es, Vals.nil, none)
  | es, Fields.cons tag exported t rest, Vals.cons v vs =>
    let step :=
      match t, v with
      | Ty.strct fs, Val.vstrct ws =>
        if exported then
          match unmarshalFields es fs ws with
          | (es2, ws2, some e) => StepRes.fail es2 (Val.vstrct ws2) e
          | (es2, ws2, none) => tagStep es2 tag exported (Ty.strct fs) (Val.vstrct ws2)
        else StepRes.next es v
      | _, _ => tagStep es tag exported t v
    match step with
    | StepRes.fail es1 v1 e => (es1, Vals.cons v1 vs, some e)
    | StepRes.next es1 v1 =>
      let r := unmarshalFields es1 rest vs
      (r.1, Vals.cons v1 r.2.1, r.2.2)

/-- The value handed to Unmarshal or Marshal, as reflect sees it: a nil
pointer (or nil interface), a non-pointer value, or a non-nil pointer
together with the type and current value of its pointee. -/
inductive Arg where
  | nilPtr : Arg
  | byValue : Ty → Val → Arg
  | toPtr : Ty → Val → Arg

/-- Does the argument pass the reflection checks of Unmarshal and Marshal:
a non-nil pointer whose pointee is a struct. -/
def isStructPtr : Arg → Bool
  | Arg.toPtr (Ty.strct _) (Val.vstrct _) => true
  | _ => false

/-- Unmarshal of src/unnamed/part_002 (lines 50 to 100): rejects a nil
pointer or a non-pointer with ErrInvalidValue, rejects a pointer whose
pointee is not a struct with ErrInvalidValue, and otherwise runs the
field loop.  Returns the mapping, the argument (with the pointee updated
in place) and the error, mirroring the in-place mutation of the Go
call. -/
def Unmarshal (es : EnvSet) (arg : Arg) : EnvSet × Arg × Option Err :=
  match arg with
  | Arg.nilPtr => (es, arg, some Err.invalidValue)
  | Arg.byValue _ _ => (es, arg, some Err.invalidValue)
  | Arg.toPtr t v =>
    match t, v with
    | Ty.strct fs, Val.vstrct vs =>
      let r := unmarshalFields es fs vs
      (r.1, Arg.toPtr (Ty.strct fs) (Val.vstrct r.2.1), r.2.2)
    | _, _ => (es, arg, some Err.invalidValue)

/-- Go fmt.Sprintf with verb %v as used by Marshal.  Strings are verbatim,
bools print true or false, ints print in decimal, a nil pointer prints
the token Go uses for it.  A non-nil pointer prints its machine address
and a struct prints its brace-enclosed field list in Go; both depend on
data this embedding does not carry (memory layout), are rendered as fixed
placeholder tokens, and are relied on by no theorem. -/
def format : Val → String
  | Val.vstr s => s
  | Val.vbool b => if b then "true" else "false"
  | Val.vint n => itoa n
  | Val.vnil => "<nil>"
  | Val.vptr _ => "<addr>"
  | Val.vstrct _ => "<struct>"
  | Val.vunsup => "<value>"

/-- Merge of a nested Marshal result into the output map (the range loop
es[k] = v of src/unnamed/part_002 lines 181 to 183); Go map iteration
order is unspecified and is determinized here to list order. -/
def mergeEnv (acc : EnvSet) : EnvSet → EnvSet
  | [] => acc
  | (k, v) :: rest => mergeEnv (insertEnv acc k v) rest

/-- Tag emission of one field of Marshal (src/unnamed/part_002 lines 186
to 204): untagged fields emit nothing; for a pointer-typed field a nil
value omits the key entirely and a non-nil value formats the pointee;
every other field formats its value directly. -/
def marshalTag (tag : String) (t : Ty) (v : Val) : Option (String × String) :=
  if tag = "" then none
  else
    match t, v with
    | Ty.ptr _, Val.vnil => none
    | Ty.ptr _, Val.vptr w => some (tag, format w)
    | _, _ => some (tag, format v)

/-- Field loop of Marshal (src/unnamed/part_002 lines 170 to 207),
accumulating the output map: an exported struct-kind field is marshalled
recursively into a fresh map that is merged into the accumulator
(continue skips an unexported one entirely), then the tag of the field
is emitted with marshalTag.  The case of field values not matching the
shape cannot arise for a reflect value. -/
def marshalFields (acc : EnvSet) : Fields → Vals → Except Err EnvSet
  | Fields.nil, _ => Except.ok acc
  | Fields.cons _ _ _ _, Vals.nil => Except.ok acc
  | Fields.cons tag exported t rest, Vals.cons v vs =>
    match t, v with
    | Ty.strct fs, Val.vstrct ws =>
      if exported then
        match marshalFields [] fs ws with
        | Except.error e => Except.error e
        | Except.ok nes =>
          match marshalTag tag (Ty.strct fs) (Val.vstrct ws) with
          | none => marshalFields (mergeEnv acc nes) rest vs
          | some (k, val) => marshalFields (insertEnv (mergeEnv acc nes) k val) rest vs
      else marshalFields acc rest vs
    | _, _ =>
      match marshalTag tag t v with
      | none => marshalFields acc rest vs
      | some (k, val) => marshalFields (insertEnv acc k val) rest vs

/-- Marshal of src/unnamed/part_002 (lines 159 to 210): the same
reflection checks as Unmarshal, then the field loop starting from an
empty output map. -/
def Marshal (arg : Arg) : Except Err EnvSet :=
  match arg with
  | Arg.nilPtr => Except.error Err.invalidValue
  | Arg.byValue _ _ => Except.error Err.invalidValue
  | Arg.toPtr t v =>
    match t, v with
    | Ty.strct fs, Val.vstrct vs => marshalFields [] fs vs
    | _, _ => Except.error Err.invalidValue

/-- Go strings for the flat-map transform, modelled as character lists
because splitting and joining on the first equals sign is analysed
character by character. -/
abbrev CStr := List Char

/-- The EnvSet built by the flat-map transform, keys and values as
character lists. -/
abbrev CEnvSet := List (CStr × CStr)

/-- Go map write m[k] = v on a transform EnvSet. -/
def insertC : CEnvSet → CStr → CStr → CEnvSet
  | [], key, val => [(key, val)]
  | (k, v) :: es, key, val =>
    if k = key then (key, val) :: es else (k, v) :: insertC es key val

/-- Go strings.SplitN with the equals sign as separator and limit 2, as
used by EnvironToEnvSet and EnvironToMap: none when the line contains no
equals sign (the length-one result of SplitN), otherwise the prefix
before the first equals sign and the entire remainder of the line. -/
def splitEq : CStr → Option (CStr × CStr)
  | [] => none
  | c :: cs =>
    if c = '=' then some ([], cs)
    else
      match splitEq cs with
      | none => none
      | some (a, b) => some (c :: a, b)

/-- Loop body of EnvironToEnvSet, threading the map being built. -/
def environToEnvSetAux (m : CEnvSet) : List CStr → Except Err CEnvSet
  | [] => Except.ok m
  | v :: rest =>
    match splitEq v with
    | none => Except.error Err.invalidEnviron
    | some (k, val) => environToEnvSetAux (insertC m k val) rest

/-- EnvironToEnvSet of the envset source (and the identical loop of
EnvironToMap in src/transform.go): builds the mapping line by line,
failing the whole operation with ErrInvalidEnviron on the first line
that SplitN cannot split in two. -/
def EnvironToEnvSet (environ : List CStr) : Except Err CEnvSet :=
  environToEnvSetAux [] environ

/-- EnvSetToEnviron of the envset source: emits one KEY=VALUE line per
entry; Go map iteration order is unspecified and is determinized here to
list order. -/
def EnvSetToEnviron (m : CEnvSet) : List CStr :=
  m.map (fun p => p.1 ++ '=' :: p.2)

/-- Modelled from the spec: the binding metadata of a field tag (spec
section 3), an ordered list of candidate keys with optional default and
required options.  The tag-parsing and alias-resolving revision of
Unmarshal is not among the source files (only its tests are); this
component follows the description in the spec. -/
structure Binding where
  keys : List String
  dflt : Option String
  required : Bool

/-- Modelled from the spec: scan the candidate keys in order and return
the first key present in the mapping together with its value. -/
def firstMatch (es : EnvSet) : List String → Option (String × String)
  | [] => none
  | k :: ks =>
    match lookupEnv es k with
    | some v => some (k, v)
    | none => firstMatch es ks

/-- Outcome of resolving one binding against the mapping. -/
inductive Resolution where
  | matched (key : String) (value : String) : Resolution
  | defaulted (value : String) : Resolution
  | missingRequired (key : String) : Resolution
  | skipped : Resolution
deriving DecidableEq, Repr

/-- Modelled from the spec (section 4.2): the first candidate key present
in the mapping wins; with no match the default literal is used when one
is declared; with no match and no default a required binding fails with
MissingRequiredValue naming the first candidate key; otherwise the field
is skipped. -/
def resolveBinding (es : EnvSet) (b : Binding) : Resolution :=
  match firstMatch es b.keys with
  | some (k, v) => Resolution.matched k v
  | none =>
    match b.dflt with
    | some d => Resolution.defaulted d
    | none =>
      if b.required then Resolution.missingRequired (b.keys.headD "")
      else Resolution.skipped

/-- Modelled from the spec (section 4.2): the decode loop over a flat
record with parsed binding metadata.  Each field resolves its binding,
converts the matched or defaulted value with the same scalar conversion
rules (the set function), consumes a literal matched key from the
mapping, and the first error aborts the traversal with earlier mutations
kept. -/
def decodeFields : EnvSet → List (Binding × Ty) → Vals → EnvSet × Vals × Option Err
  | es, [], vs => (es, vs, none)
  | es, _ :: _, Vals.nil => (es, Vals.nil, none)
  | es, (b, t) :: rest, Vals.cons v vs =>
    match resolveBinding es b with
    | Resolution.skipped =>
      let r := decodeFields es rest vs
      (r.1, Vals.cons v r.2.1, r.2.2)
    | Resolution.missingRequired k => (es, Vals.cons v vs, some (Err.missingRequiredValue k))
    | Resolution.defaulted d =>
      match set t d with
      | Except.error e => (es, Vals.cons v vs, some e)
      | Except.ok v2 =>
        let r := decodeFields es rest vs
        (r.1, Vals.cons v2 r.2.1, r.2.2)
    | Resolution.matched k mv =>
      match set t mv with
      | Except.error e => (es, Vals.cons v vs, some e)
      | Except.ok v2 =>
        let r := decodeFields (deleteEnv es k) rest vs
        (r.1, Vals.cons v2 r.2.1, r.2.2)

theorem lookupEnv_deleteEnv (es : EnvSet) (key j : String) :
    lookupEnv (deleteEnv es key) j = if j = key then none else lookupEnv es j := by
  induction es with
  | nil => simp [deleteEnv, lookupEnv]
  | cons p es ih =>
    obtain ⟨k, v⟩ := p
    simp only [deleteEnv, lookupEnv]
    by_cases h1 : k = key <;> by_cases h2 : j = key <;> by_cases h3 : k = j <;>
      simp_all [lookupEnv]

theorem lookupEnv_insertEnv (es : EnvSet) (key val j : String) :
    lookupEnv (insertEnv es key val) j = if key = j then some val else lookupEnv es j := by
  induction es with
  | nil => simp [insertEnv, lookupEnv]
  | cons p es ih =>
    obtain ⟨k, v⟩ := p
    simp only [insertEnv, lookupEnv]
    by_cases h1 : k = key <;> by_cases h2 : key = j <;> by_cases h3 : k = j <;>
      simp_all [lookupEnv]

theorem lookupEnv_eq_none_iff (es : EnvSet) (key : String) :
    lookupEnv es key = none ↔ key ∉ es.map Prod.fst := by
  induction es with
  | nil => simp [lookupEnv]
  | cons p es ih =>
    obtain ⟨k, v⟩ := p
    simp only [lookupEnv, List.map_cons, List.mem_cons]
    by_cases h1 : k = key <;> simp_all [eq_comm]

theorem deleteEnv_of_lookup_none (es : EnvSet) (key : String)
    (h : lookupEnv es key = none) : deleteEnv es key = es := by
  induction es with
  | nil => rfl
  | cons p es ih =>
    obtain ⟨k, v⟩ := p
    simp only [lookupEnv] at h
    by_cases h1 : k = key <;> simp_all [deleteEnv]

theorem digitChar_spec (d : Nat) (hd : d < 10) :
    Char.isDigit (digitChar d) = true ∧ digitVal (digitChar d) = d := by
  interval_cases d <;> exact ⟨by decide, by decide⟩

theorem natToCharsFuel_digits :
    ∀ (fuel n : Nat), n ≤ fuel → ∀ c ∈ natToCharsFuel fuel n, Char.isDigit c = true
  | 0, n, _, c, hc => by simp [natToCharsFuel] at hc
  | fuel + 1, n, h, c, hc => by
    by_cases h0 : n = 0
    · simp [natToCharsFuel, h0] at hc
    · have hdiv : n / 10 ≤ fuel := by omega
      simp only [natToCharsFuel, h0, if_false, List.mem_append, List.mem_singleton] at hc
      rcases hc with hc | hc
      · exact natToCharsFuel_digits fuel (n / 10) hdiv c hc
      · subst hc
        exact (digitChar_spec (n % 10) (by omega)).1

theorem natToCharsFuel_foldl :
    ∀ (fuel n a : Nat), n ≤ fuel →
      List.foldl (fun b c => b * 10 + digitVal c) a (natToCharsFuel fuel n) =
        a * 10 ^ (natToCharsFuel fuel n).length + n
  | 0, n, a, h => by
    have : n = 0 := by omega
    simp [natToCharsFuel, this]
  | fuel + 1, n, a, h => by
    by_cases h0 : n = 0
    · simp [natToCharsFuel, h0]
    · have hdiv : n / 10 ≤ fuel := by omega
      have ihl := natToCharsFuel_foldl fuel (n / 10) a hdiv
      simp only [natToCharsFuel, h0, if_false, List.foldl_append, List.foldl_cons,
        List.foldl_nil, List.length_append, List.length_singleton, ihl]
      have hdv : digitVal (digitChar (n % 10)) = n % 10 :=
        (digitChar_spec (n % 10) (by omega)).2
      rw [hdv, pow_succ]
      have hsplit : n / 10 * 10 + n % 10 = n := by omega
      ring_nf
      omega

theorem natToChars_ne_nil (m : Nat) : natToChars m ≠ [] := by
  by_cases h0 : m = 0
  · simp [natToChars, h0]
  · obtain ⟨fuel, hf⟩ : ∃ fuel, m = fuel + 1 := ⟨m - 1, by omega⟩
    simp only [natToChars, h0, if_false]
    rw [hf]
    simp [natToCharsFuel, show fuel + 1 ≠ 0 by omega]

theorem natToChars_digits (m : Nat) : ∀ c ∈ natToChars m, Char.isDigit c = true := by
  by_cases h0 : m = 0
  · simp only [natToChars, h0, if_true]
    intro c hc
    simp only [List.mem_singleton] at hc
    subst hc
    decide
  · simp only [natToChars, h0, if_false]
    exact natToCharsFuel_digits m m le_rfl

theorem parseNatDigits_natToChars (m : Nat) : parseNatDigits (natToChars m) = some m := by
  by_cases h0 : m = 0
  · subst h0
    rfl
  · have hne := natToChars_ne_nil m
    have hdig := natToChars_digits m
    simp only [natToChars, h0, if_false] at hne hdig ⊢
    have hall : (natToCharsFuel m m).all Char.isDigit = true := by
      rw [List.all_eq_true]
      exact hdig
    have hfold := natToCharsFuel_foldl m m 0 le_rfl
    simp only [parseNatDigits, List.isEmpty_iff, hne, if_false, hall, if_true, hfold]
    simp

theorem atoi_itoa (n : Int) (h1 : -(2 : Int) ^ 63 ≤ n) (h2 : n < 2 ^ 63) :
    atoi (itoa n) = some n := by
  by_cases hn : n < 0
  · have habs : ((n.natAbs : Int)) ≤ 2 ^ 63 := by omega
    simp only [itoa, if_pos hn, atoi]
    show atoiChars ('-' :: natToChars n.natAbs) = some n
    simp only [atoiChars, if_pos rfl, parseNatDigits_natToChars, if_pos habs,
      if_true, Option.some.injEq]
    omega
  · obtain ⟨c, cs, hc⟩ : ∃ c cs, natToChars n.toNat = c :: cs := by
      rcases h : natToChars n.toNat with _ | ⟨c, cs⟩
      · exact absurd h (natToChars_ne_nil _)
      · exact ⟨c, cs, rfl⟩
    have hcd : Char.isDigit c = true := by
      have := natToChars_digits n.toNat
      rw [hc] at this
      exact this c (List.mem_cons_self c cs)
    have hcm : ¬ c = '-' := by
      intro h
      rw [h] at hcd
      exact absurd hcd (by decide)
    have hcp : ¬ c = '+' := by
      intro h
      rw [h] at hcd
      exact absurd hcd (by decide)
    have hrange : ((n.toNat : Int)) < 2 ^ 63 := by omega
    have hparse : parseNatDigits (c :: cs) = some n.toNat := by
      rw [← hc]
      exact parseNatDigits_natToChars n.toNat
    simp only [itoa, if_neg hn, atoi]
    show atoiChars (natToChars n.toNat) = some n
    rw [hc]
    simp only [atoiChars, if_neg hcm, if_neg hcp, hparse, if_pos hrange,
      Option.some.injEq]
    omega

theorem parseBool_encodeBool (b : Bool) :
    parseBool (format (Val.vbool b)) = some b := by
  cases b <;> rfl

theorem set_error_ne_invalid :
    ∀ (t : Ty) (s : String) (e : Err), set t s = Except.error e → ¬ e = Err.invalidValue
  | Ty.ptr t, s, e => by
    simp only [set]
    cases hs : set t s with
    | error e2 =>
      intro h
      simp only [Except.error.injEq] at h
      exact h ▸ set_error_ne_invalid t s e2 hs
    | ok v => simp
  | Ty.str, s, e => by simp [set]
  | Ty.boolean, s, e => by
    simp only [set]
    cases parseBool s with
    | none =>
      simp only [Except.error.injEq]
      rintro rfl
      simp
    | some b => simp
  | Ty.int, s, e => by
    simp only [set]
    cases atoi s with
    | none =>
      simp only [Except.error.injEq]
      rintro rfl
      simp
    | some n => simp
  | Ty.strct fs, s, e => by
    simp only [set, Except.error.injEq]
    rintro rfl
    simp
  | Ty.unsupported, s, e => by
    simp only [set, Except.error.injEq]
    rintro rfl
    simp

theorem tagStep_fail_ne_invalid (es : EnvSet) (tag : String) (exported : Bool) (t : Ty)
    (v : Val) (es1 : EnvSet) (v1 : Val) (e : Err)
    (h : tagStep es tag exported t v = StepRes.fail es1 v1 e) : ¬ e = Err.invalidValue := by
  unfold tagStep at h
  by_cases h1 : tag = ""
  · rw [if_pos h1] at h
    cases h
  · rw [if_neg h1] at h
    by_cases h2 : exported = false
    · rw [if_pos h2] at h
      cases h
      simp
    · rw [if_neg h2] at h
      cases hl : lookupEnv es tag with
      | none => simp [hl] at h
      | some envVar =>
        simp only [hl] at h
        cases hs : set t envVar with
        | error e2 =>
          simp only [hs, StepRes.fail.injEq] at h
          obtain ⟨-, -, he⟩ := h
          exact he ▸ set_error_ne_invalid t envVar e2 hs
        | ok v2 => simp [hs] at h

theorem unmarshalFields_cons_notStruct (es : EnvSet) (tag : String) (exported : Bool)
    (t : Ty) (v : Val) (rest : Fields) (vs : Vals)
    (hsv : ∀ (fs2 : Fields) (ws : Vals), ¬ (t = Ty.strct fs2 ∧ v = Val.vstrct ws)) :
    unmarshalFields es (Fields.cons tag exported t rest) (Vals.cons v vs) =
      match tagStep es tag exported t v with
      | StepRes.fail es1 v1 e => (es1, Vals.cons v1 vs, some e)
      | StepRes.next es1 v1 =>
        ((unmarshalFields es1 rest vs).1, Vals.cons v1 (unmarshalFields es1 rest vs).2.1,
          (unmarshalFields es1 rest vs).2.2) := by
  cases t <;> cases v <;> first
    | exact absurd ⟨rfl, rfl⟩ (hsv _ _)
    | simp [unmarshalFields]

theorem unmarshalFields_cons_struct_true (es : EnvSet) (tag : String) (fs rest : Fields)
    (ws : Vals) (vs : Vals) :
    unmarshalFields es (Fields.cons tag true (Ty.strct fs) rest) (Vals.cons (Val.vstrct ws) vs) =
      match unmarshalFields es fs ws with
      | (es2, ws2, some e) => (es2, Vals.cons (Val.vstrct ws2) vs, some e)
      | (es2, ws2, none) =>
        match tagStep es2 tag true (Ty.strct fs) (Val.vstrct ws2) with
        | StepRes.fail es1 v1 e => (es1, Vals.cons v1 vs, some e)
        | StepRes.next es1 v1 =>
          ((unmarshalFields es1 rest vs).1, Vals.cons v1 (unmarshalFields es1 rest vs).2.1,
            (unmarshalFields es1 rest vs).2.2) := by
  rcases h : unmarshalFields es fs ws with ⟨es2, ws2, err⟩
  cases err <;> simp [unmarshalFields, h]

theorem unmarshalFields_cons_struct_false (es : EnvSet) (tag : String) (fs rest : Fields)
    (ws : Vals) (vs : Vals) :
    unmarshalFields es (Fields.cons tag false (Ty.strct fs) rest) (Vals.cons (Val.vstrct ws) vs) =
      ((unmarshalFields es rest vs).1, Vals.cons (Val.vstrct ws) (unmarshalFields es rest vs).2.1,
        (unmarshalFields es rest vs).2.2) := by
  simp [unmarshalFields]

theorem unmarshalFields_not_invalid :
    ∀ (es : EnvSet) (fs : Fields) (vs : Vals),
      ¬ (unmarshalFields es fs vs).2.2 = some Err.invalidValue
  | es, Fields.nil, vs => by simp [unmarshalFields]
  | es, Fields.cons tag exported t rest, Vals.nil => by simp [unmarshalFields]
  | es, Fields.cons tag exported t rest, Vals.cons v vs => by
    have hrest : ∀ (es1 : EnvSet),
        ¬ (unmarshalFields es1 rest vs).2.2 = some Err.invalidValue := fun es1 =>
      unmarshalFields_not_invalid es1 rest vs
    have htag : ∀ (es0 : EnvSet) (ex0 : Bool) (t0 : Ty) (v0 : Val),
        ¬ (match tagStep es0 tag ex0 t0 v0 with
            | StepRes.fail es1 v1 e => (es1, Vals.cons v1 vs, some e)
            | StepRes.next es1 v1 =>
              ((unmarshalFields es1 rest vs).1, Vals.cons v1 (unmarshalFields es1 rest vs).2.1,
                (unmarshalFields es1 rest vs).2.2)).2.2 = some Err.invalidValue := by
      intro es0 ex0 t0 v0
      cases hts : tagStep es0 tag ex0 t0 v0 with
      | fail es1 v1 e =>
        simp only [Option.some.injEq]
        intro hinv
        exact tagStep_fail_ne_invalid es0 tag ex0 t0 v0 es1 v1 e hts hinv
      | next es1 v1 => exact hrest es1
    by_cases hsv : ∃ (fs2 : Fields) (ws : Vals), t = Ty.strct fs2 ∧ v = Val.vstrct ws
    · obtain ⟨fs2, ws, rfl, rfl⟩ := hsv
      cases hex : exported with
      | false =>
        rw [unmarshalFields_cons_struct_false]
        exact hrest es
      | true =>
        have hnested := unmarshalFields_not_invalid es fs2 ws
        rw [unmarshalFields_cons_struct_true]
        rcases hn : unmarshalFields es fs2 ws with ⟨es2, ws2, err⟩
        rw [hn] at hnested
        cases err with
        | some e =>
          simp only [Option.some.injEq]
          intro hinv
          exact hnested (by simp [hinv])
        | none => exact htag es2 true (Ty.strct fs2) (Val.vstrct ws2)
    · rw [unmarshalFields_cons_notStruct es tag exported t v rest vs
        (fun fs2 ws hc => hsv ⟨fs2, ws, hc⟩)]
      exact htag es exported t v

theorem marshalFields_cons_notStruct (acc : EnvSet) (tag : String) (exported : Bool)
    (t : Ty) (v : Val) (rest : Fields) (vs : Vals)
    (hsv : ∀ (fs2 : Fields) (ws : Vals), ¬ (t = Ty.strct fs2 ∧ v = Val.vstrct ws)) :
    marshalFields acc (Fields.cons tag exported t rest) (Vals.cons v vs) =
      match marshalTag tag t v with
      | none => marshalFields acc rest vs
      | some p => marshalFields (insertEnv acc p.1 p.2) rest vs := by
  cases t <;> cases v <;> first
    | exact absurd ⟨rfl, rfl⟩ (hsv _ _)
    | (simp only [marshalFields]
       cases marshalTag tag _ _ with
       | none => rfl
       | some p => obtain ⟨k, val⟩ := p; rfl)

theorem marshalFields_cons_struct_true (acc : EnvSet) (tag : String) (fs rest : Fields)
    (ws : Vals) (vs : Vals) :
    marshalFields acc (Fields.cons tag true (Ty.strct fs) rest) (Vals.cons (Val.vstrct ws) vs) =
      match marshalFields [] fs ws with
      | Except.error e => Except.error e
      | Except.ok nes =>
        match marshalTag tag (Ty.strct fs) (Val.vstrct ws) with
        | none => marshalFields (mergeEnv acc nes) rest vs
        | some p => marshalFields (insertEnv (mergeEnv acc nes) p.1 p.2) rest vs := by
  rcases h : marshalFields [] fs ws with e | nes <;>
    (simp only [marshalFields, h]
     try (cases marshalTag tag (Ty.strct fs) (Val.vstrct ws) with
          | none => rfl
          | some p => obtain ⟨k, val⟩ := p; rfl))

theorem marshalFields_cons_struct_false (acc : EnvSet) (tag : String) (fs rest : Fields)
    (ws : Vals) (vs : Vals) :
    marshalFields acc (Fields.cons tag false (Ty.strct fs) rest) (Vals.cons (Val.vstrct ws) vs) =
      marshalFields acc rest vs := by
  simp [marshalFields]

theorem marshalFields_ok :
    ∀ (fs : Fields) (vs : Vals) (acc : EnvSet), ∃ es, marshalFields acc fs vs = Except.ok es
  | Fields.nil, vs, acc => ⟨acc, rfl⟩
  | Fields.cons tag exported t rest, Vals.nil, acc => ⟨acc, rfl⟩
  | Fields.cons tag exported t rest, Vals.cons v vs, acc => by
    have hrest : ∀ (acc1 : EnvSet), ∃ es, marshalFields acc1 rest vs = Except.ok es :=
      fun acc1 => marshalFields_ok rest vs acc1
    by_cases hsv : ∃ (fs2 : Fields) (ws : Vals), t = Ty.strct fs2 ∧ v = Val.vstrct ws
    · obtain ⟨fs2, ws, rfl, rfl⟩ := hsv
      cases hex : exported with
      | false =>
        rw [marshalFields_cons_struct_false]
        exact hrest acc
      | true =>
        obtain ⟨nes, hn⟩ := marshalFields_ok fs2 ws []
        rw [marshalFields_cons_struct_true, hn]
        cases marshalTag tag (Ty.strct fs2) (Val.vstrct ws) with
        | none => exact hrest _
        | some p => exact hrest _
    · rw [marshalFields_cons_notStruct acc tag exported t v rest vs
        (fun fs2 ws hc => hsv ⟨fs2, ws, hc⟩)]
      cases marshalTag tag t v with
      | none => exact hrest acc
      | some p => exact hrest _

/-- C7: Unmarshal and Marshal fail with ErrInvalidValue exactly when the
supplied value is not a non-nil pointer whose pointee is a struct: a nil
pointer, a non-pointer value and a pointer to a pointer to a struct all
fail with ErrInvalidValue, while a non-nil pointer directly to a struct
never does; and on that failure the mapping and the record are returned
untouched. -/
theorem c7_invalidValue_iff (es : EnvSet) (arg : Arg) :
    ((Unmarshal es arg).2.2 = some Err.invalidValue ↔ isStructPtr arg = false)
    ∧ (Marshal arg = Except.error Err.invalidValue ↔ isStructPtr arg = false)
    ∧ (isStructPtr arg = false → Unmarshal es arg = (es, arg, some Err.invalidValue)) := by
  cases arg with
  | nilPtr =>
    exact ⟨by simp [Unmarshal, isStructPtr], by simp [Marshal, isStructPtr], fun _ => rfl⟩
  | byValue t v =>
    exact ⟨by simp [Unmarshal, isStructPtr], by simp [Marshal, isStructPtr], fun _ => rfl⟩
  | toPtr t v =>
    by_cases hsv : ∃ (fs : Fields) (vs : Vals), t = Ty.strct fs ∧ v = Val.vstrct vs
    · obtain ⟨fs, vs, rfl, rfl⟩ := hsv
      refine ⟨?_, ?_, ?_⟩
      · have hni := unmarshalFields_not_invalid es fs vs
        constructor
        · intro h
          exact absurd h hni
        · intro h
          exact absurd h (by simp [isStructPtr])
      · obtain ⟨nes, hn⟩ := marshalFields_ok fs vs []
        constructor
        · intro h
          rw [show Marshal (Arg.toPtr (Ty.strct fs) (Val.vstrct vs)) = marshalFields [] fs vs
            from rfl, hn] at h
          cases h
        · intro h
          exact absurd h (by simp [isStructPtr])
      · intro h
        exact absurd h (by simp [isStructPtr])
    · have hred : Unmarshal es (Arg.toPtr t v) = (es, Arg.toPtr t v, some Err.invalidValue) := by
        cases t <;> cases v <;> first
          | rfl
          | exact absurd ⟨_, _, rfl, rfl⟩ hsv
      have hredm : Marshal (Arg.toPtr t v) = Except.error Err.invalidValue := by
        cases t <;> cases v <;> first
          | rfl
          | exact absurd ⟨_, _, rfl, rfl⟩ hsv
      have hsp : isStructPtr (Arg.toPtr t v) = false := by
        cases t <;> cases v <;> first
          | rfl
          | exact absurd ⟨_, _, rfl, rfl⟩ hsv
      exact ⟨by simp [hred, hsp], by simp [hredm, hsp], fun _ => hred⟩

/-- C8 counterexample: the claim states that a boolean field whose matched
value is any string other than exactly true or false fails to decode; the
value 1 is neither of those tokens, yet Unmarshal succeeds on it and
stores true (Go strconv.ParseBool accepts it), refuting the claim. -/
theorem c8_counterexample :
    (¬ "1" = "true" ∧ ¬ "1" = "false")
    ∧ Unmarshal [("BOOL", "1")]
        (Arg.toPtr (Ty.strct (Fields.cons "BOOL" true Ty.boolean Fields.nil))
          (Val.vstrct (Vals.cons (Val.vbool false) Vals.nil))) =
      ([], Arg.toPtr (Ty.strct (Fields.cons "BOOL" true Ty.boolean Fields.nil))
          (Val.vstrct (Vals.cons (Val.vbool true) Vals.nil)), none) :=
  ⟨⟨by decide, by decide⟩, rfl⟩

/-- C8 amended: decoding a boolean field fails (with the propagated
strconv parse error) exactly when the matched value lies outside the
twelve tokens accepted by Go strconv.ParseBool, namely 1, t, T, TRUE,
true, True, 0, f, F, FALSE, false, False; an accepted token stores its
parsed boolean; and encoding a boolean field always produces exactly
true or false. -/
theorem c8_boolean_parse_amended (s : String) (b : Bool) :
    (set Ty.boolean s = Except.error (Err.numError s) ↔ parseBool s = none)
    ∧ (parseBool s = none ↔
        ¬ (s = "1" ∨ s = "t" ∨ s = "T" ∨ s = "TRUE" ∨ s = "true" ∨ s = "True"
          ∨ s = "0" ∨ s = "f" ∨ s = "F" ∨ s = "FALSE" ∨ s = "false" ∨ s = "False"))
    ∧ (∀ b2 : Bool, parseBool s = some b2 → set Ty.boolean s = Except.ok (Val.vbool b2))
    ∧ (format (Val.vbool b) = "true" ∨ format (Val.vbool b) = "false") := by
  refine ⟨?_, ?_, ?_, ?_⟩
  · cases h : parseBool s <;> simp [set, h]
  · unfold parseBool
    split_ifs with h1 h2 <;> simp_all
    tauto
  · intro b2 h
    simp [set, h]
  · cases b <;> simp [format]

/-- C8 amended witness: the token yes is rejected with the parse error,
via the amended theorem at a concrete input. -/
theorem c8_boolean_parse_amended_witness :
    parseBool "yes" = none ∧ set Ty.boolean "yes" = Except.error (Err.numError "yes") :=
  ⟨rfl, (c8_boolean_parse_amended "yes" true).1.mpr rfl⟩

/-- Iterated pointer type, n levels of indirection over a base type. -/
def ptrN : Nat → Ty → Ty
  | 0, t => t
  | n + 1, t => Ty.ptr (ptrN n t)

/-- Iterated non-nil pointer value, n levels of allocation over a base
value. -/
def vptrN : Nat → Val → Val
  | 0, v => v
  | n + 1, v => Val.vptr (vptrN n v)

theorem set_ptrN (n : Nat) (t : Ty) (s : String) (w : Val)
    (h : set t s = Except.ok w) : set (ptrN n t) s = Except.ok (vptrN n w) := by
  induction n with
  | zero => simpa [ptrN, vptrN] using h
  | succ n ih => simp [ptrN, vptrN, set, ih]

/-- C3: for a pointer-typed field (any number of indirection levels plus
one): when its key is absent Unmarshal leaves the field nil and the
mapping unchanged; when its key is present, bound to any string
(including the empty string) whose base conversion succeeds, Unmarshal
allocates storage at every level and sets the pointed-to value, consuming
the key; Marshal omits the key of a nil pointer field entirely; and
Marshal emits the formatted pointee for a non-nil pointer field. -/
theorem c3_pointer_fields (es : EnvSet) (tag : String) (n : Nat) (t : Ty) (s : String)
    (w : Val) (htag : ¬ tag = "") :
    (lookupEnv es tag = none →
      Unmarshal es (Arg.toPtr (Ty.strct (Fields.cons tag true (ptrN (n + 1) t) Fields.nil))
          (Val.vstrct (Vals.cons Val.vnil Vals.nil))) =
        (es, Arg.toPtr (Ty.strct (Fields.cons tag true (ptrN (n + 1) t) Fields.nil))
          (Val.vstrct (Vals.cons Val.vnil Vals.nil)), none))
    ∧ (lookupEnv es tag = some s → set t s = Except.ok w →
      Unmarshal es (Arg.toPtr (Ty.strct (Fields.cons tag true (ptrN (n + 1) t) Fields.nil))
          (Val.vstrct (Vals.cons Val.vnil Vals.nil))) =
        (deleteEnv es tag,
          Arg.toPtr (Ty.strct (Fields.cons tag true (ptrN (n + 1) t) Fields.nil))
            (Val.vstrct (Vals.cons (vptrN (n + 1) w) Vals.nil)), none))
    ∧ (Marshal (Arg.toPtr (Ty.strct (Fields.cons tag true (ptrN (n + 1) t) Fields.nil))
          (Val.vstrct (Vals.cons Val.vnil Vals.nil))) = Except.ok [])
    ∧ (∀ w2 : Val,
      Marshal (Arg.toPtr (Ty.strct (Fields.cons tag true (ptrN (n + 1) t) Fields.nil))
          (Val.vstrct (Vals.cons (Val.vptr w2) Vals.nil))) =
        Except.ok [(tag, format w2)]) := by
  refine ⟨?_, ?_, ?_, ?_⟩
  · intro hlook
    simp only [ptrN, Unmarshal]
    rw [unmarshalFields_cons_notStruct es tag true (Ty.ptr (ptrN n t)) Val.vnil Fields.nil
      Vals.nil (by simp)]
    simp [tagStep, htag, hlook, unmarshalFields]
  · intro hlook hset
    have hsetp : set (ptrN (n + 1) t) s = Except.ok (vptrN (n + 1) w) :=
      set_ptrN (n + 1) t s w hset
    simp only [ptrN, vptrN] at hsetp ⊢
    simp only [Unmarshal]
    rw [unmarshalFields_cons_notStruct es tag true (Ty.ptr (ptrN n t)) Val.vnil Fields.nil
      Vals.nil (by simp)]
    simp [tagStep, htag, hlook, hsetp, unmarshalFields]
  · simp only [ptrN, Marshal]
    rw [marshalFields_cons_notStruct [] tag true (Ty.ptr (ptrN n t)) Val.vnil Fields.nil
      Vals.nil (by simp)]
    simp [marshalTag, htag, marshalFields]
  · intro w2
    simp only [ptrN, Marshal]
    rw [marshalFields_cons_notStruct [] tag true (Ty.ptr (ptrN n t)) (Val.vptr w2) Fields.nil
      Vals.nil (by simp)]
    simp [marshalTag, htag, marshalFields, insertEnv]

/-- C3 witness: a two-level string pointer field tagged P, decoded from a
mapping binding P to the empty string, allocates both levels and stores
the empty string; and Marshal on the nil field omits the key, all via the
theorem at concrete inputs. -/
theorem c3_pointer_fields_witness :
    ¬ "P" = ""
    ∧ lookupEnv [("P", "")] "P" = some ""
    ∧ set Ty.str "" = Except.ok (Val.vstr "")
    ∧ Unmarshal [("P", "")]
        (Arg.toPtr (Ty.strct (Fields.cons "P" true (ptrN 2 Ty.str) Fields.nil))
          (Val.vstrct (Vals.cons Val.vnil Vals.nil))) =
      ([], Arg.toPtr (Ty.strct (Fields.cons "P" true (ptrN 2 Ty.str) Fields.nil))
          (Val.vstrct (Vals.cons (vptrN 2 (Val.vstr "")) Vals.nil)), none)
    ∧ Marshal (Arg.toPtr (Ty.strct (Fields.cons "P" true (ptrN 2 Ty.str) Fields.nil))
          (Val.vstrct (Vals.cons Val.vnil Vals.nil))) = Except.ok [] := by
  have h := c3_pointer_fields [("P", "")] "P" 1 Ty.str "" (Val.vstr "") (by decide)
  exact ⟨by decide, rfl, rfl, by simpa [deleteEnv] using h.2.1 rfl rfl, h.2.2.1⟩

theorem firstMatch_of_absent_prefix (es : EnvSet) (ks1 : List String) (k : String)
    (ks2 : List String) (s : String)
    (h1 : ∀ k1 ∈ ks1, lookupEnv es k1 = none) (h2 : lookupEnv es k = some s) :
    firstMatch es (ks1 ++ k :: ks2) = some (k, s) := by
  induction ks1 with
  | nil => simp [firstMatch, h2]
  | cons k1 ks1 ih =>
    have hk1 : lookupEnv es k1 = none := h1 k1 (List.mem_cons_self k1 ks1)
    simp only [List.cons_append, firstMatch, hk1]
    exact ih (fun x hx => h1 x (List.mem_cons_of_mem k1 hx))

theorem firstMatch_of_all_absent (es : EnvSet) (ks : List String)
    (h : ∀ k1 ∈ ks, lookupEnv es k1 = none) : firstMatch es ks = none := by
  induction ks with
  | nil => rfl
  | cons k1 ks ih =>
    have hk1 : lookupEnv es k1 = none := h k1 (List.mem_cons_self k1 ks)
    simp only [firstMatch, hk1]
    exact ih (fun x hx => h x (List.mem_cons_of_mem k1 hx))

/-- C1: alias precedence of the spec-modelled resolver.  For a field
whose candidate key list splits as earlier keys, a key k, and later keys,
where every earlier key is absent from the mapping and k is present,
decoding binds the field to the value of k (and consumes k): the first
candidate key present in the mapping wins, and a later key is reached
only when every earlier candidate key is absent.  In particular with
candidate keys A and B both present, A wins. -/
theorem c1_alias_precedence (es : EnvSet) (ks1 : List String) (k : String)
    (ks2 : List String) (dflt : Option String) (req : Bool) (t : Ty) (v0 : Val)
    (s : String) (v2 : Val)
    (habsent : ∀ k1 ∈ ks1, lookupEnv es k1 = none)
    (hpresent : lookupEnv es k = some s)
    (hset : set t s = Except.ok v2) :
    decodeFields es [(Binding.mk (ks1 ++ k :: ks2) dflt req, t)] (Vals.cons v0 Vals.nil) =
      (deleteEnv es k, Vals.cons v2 Vals.nil, none) := by
  simp [decodeFields, resolveBinding,
    firstMatch_of_absent_prefix es ks1 k ks2 s habsent hpresent, hset]

/-- C1 witness: with candidate keys A and B both present in the mapping,
the field binds to the value of A and A is consumed, via the theorem at
concrete inputs. -/
theorem c1_alias_precedence_witness :
    lookupEnv [("A", "va"), ("B", "vb")] "A" = some "va"
    ∧ lookupEnv [("A", "va"), ("B", "vb")] "B" = some "vb"
    ∧ decodeFields [("A", "va"), ("B", "vb")]
        [(Binding.mk ["A", "B"] none false, Ty.str)] (Vals.cons (Val.vstr "") Vals.nil) =
      ([("B", "vb")], Vals.cons (Val.vstr "va") Vals.nil, none) := by
  have h := c1_alias_precedence [("A", "va"), ("B", "vb")] [] "A" ["B"] none false Ty.str
    (Val.vstr "") "va" (Val.vstr "va") (by simp) rfl rfl
  exact ⟨rfl, rfl, by simpa [deleteEnv] using h⟩

/-- C6: required enforcement of the spec-modelled resolver.  A field with
required true and no default whose candidate keys are all absent makes
decoding fail with MissingRequiredValue naming the first candidate key;
inserting that key with a convertible value makes the same call succeed,
as does declaring a convertible default. -/
theorem c6_required_enforcement (es : EnvSet) (k : String) (ks : List String) (t : Ty)
    (v0 : Val) (habsent : ∀ k1 ∈ k :: ks, lookupEnv es k1 = none) :
    (decodeFields es [(Binding.mk (k :: ks) none true, t)] (Vals.cons v0 Vals.nil) =
      (es, Vals.cons v0 Vals.nil, some (Err.missingRequiredValue k)))
    ∧ (∀ (s : String) (v2 : Val), set t s = Except.ok v2 →
      decodeFields (insertEnv es k s) [(Binding.mk (k :: ks) none true, t)]
          (Vals.cons v0 Vals.nil) =
        (deleteEnv (insertEnv es k s) k, Vals.cons v2 Vals.nil, none))
    ∧ (∀ (d : String) (v2 : Val), set t d = Except.ok v2 →
      decodeFields es [(Binding.mk (k :: ks) (some d) true, t)] (Vals.cons v0 Vals.nil) =
        (es, Vals.cons v2 Vals.nil, none)) := by
  refine ⟨?_, ?_, ?_⟩
  · simp [decodeFields, resolveBinding, firstMatch_of_all_absent es (k :: ks) habsent]
  · intro s v2 hset
    have hk : lookupEnv (insertEnv es k s) k = some s := by
      simp [lookupEnv_insertEnv]
    simp [decodeFields, resolveBinding, firstMatch, hk, hset]
  · intro d v2 hset
    simp [decodeFields, resolveBinding, firstMatch_of_all_absent es (k :: ks) habsent, hset]

/-- C6 witness: a required string field with key REQ and no default fails
on the empty mapping with MissingRequiredValue REQ, and succeeds once
REQ is supplied, via the theorem at concrete inputs. -/
theorem c6_required_enforcement_witness :
    (decodeFields [] [(Binding.mk ["REQ"] none true, Ty.str)]
        (Vals.cons (Val.vstr "") Vals.nil) =
      ([], Vals.cons (Val.vstr "") Vals.nil, some (Err.missingRequiredValue "REQ")))
    ∧ (decodeFields [("REQ", "x")] [(Binding.mk ["REQ"] none true, Ty.str)]
        (Vals.cons (Val.vstr "") Vals.nil) =
      ([], Vals.cons (Val.vstr "x") Vals.nil, none))
    ∧ (decodeFields [] [(Binding.mk ["REQ"] (some "d") true, Ty.str)]
        (Vals.cons (Val.vstr "") Vals.nil) =
      ([], Vals.cons (Val.vstr "d") Vals.nil, none)) := by
  have h := c6_required_enforcement [] "REQ" [] Ty.str (Val.vstr "")
    (by intro k1 hk1; rfl)
  refine ⟨h.1, ?_, h.2.2 "d" (Val.vstr "d") rfl⟩
  have h2 := h.2.1 "x" (Val.vstr "x") rfl
  simpa [insertEnv, deleteEnv] using h2

theorem splitEq_eq_none_iff (cs : CStr) : splitEq cs = none ↔ ¬ '=' ∈ cs := by
  induction cs with
  | nil => simp [splitEq]
  | cons c cs ih =>
    by_cases hc : c = '='
    · subst hc
      simp [splitEq]
    · simp only [splitEq, if_neg hc, List.mem_cons]
      cases h : splitEq cs with
      | none =>
        have ihn : ¬ '=' ∈ cs := ih.mp h
        exact iff_of_true rfl (by rw [not_or]; exact ⟨fun h1 => hc h1.symm, ihn⟩)
      | some p =>
        have ihs : '=' ∈ cs := by
          by_contra hno
          have h2 := ih.mpr hno
          rw [h2] at h
          cases h
        obtain ⟨a, b⟩ := p
        exact iff_of_false (by simp) (by simp [ihs])

theorem splitEq_join (k v : CStr) (hk : ¬ '=' ∈ k) :
    splitEq (k ++ '=' :: v) = some (k, v) := by
  induction k with
  | nil => simp [splitEq]
  | cons c k ih =>
    have hc : ¬ c = '=' := by
      intro h
      exact hk (by simp [h])
    have hk2 : ¬ '=' ∈ k := by
      intro h
      exact hk (List.mem_cons_of_mem c h)
    simp [splitEq, hc, ih hk2]

theorem environToEnvSetAux_error_iff (lines : List CStr) :
    ∀ m : CEnvSet, (environToEnvSetAux m lines = Except.error Err.invalidEnviron ↔
      ∃ line ∈ lines, splitEq line = none) := by
  induction lines with
  | nil => intro m; simp [environToEnvSetAux]
  | cons v rest ih =>
    intro m
    cases h : splitEq v with
    | none => simp [environToEnvSetAux, h]
    | some p =>
      obtain ⟨k, val⟩ := p
      simp only [environToEnvSetAux, h, List.mem_cons]
      rw [ih (insertC m k val)]
      constructor
      · rintro ⟨line, hmem, hnone⟩
        exact ⟨line, Or.inr hmem, hnone⟩
      · rintro ⟨line, hmem, hnone⟩
        rcases hmem with rfl | hmem
        · rw [h] at hnone
          cases hnone
        · exact ⟨line, hmem, hnone⟩

theorem environToEnvSetAux_join (ks : CEnvSet) :
    ∀ m : CEnvSet, (∀ p ∈ ks, ¬ '=' ∈ p.1) →
      environToEnvSetAux m (ks.map (fun p => p.1 ++ '=' :: p.2)) =
        Except.ok (ks.foldl (fun acc p => insertC acc p.1 p.2) m) := by
  induction ks with
  | nil => intro m _; rfl
  | cons p ks ih =>
    intro m hkeys
    obtain ⟨k, v⟩ := p
    have hk : ¬ '=' ∈ k := hkeys (k, v) (List.mem_cons_self _ _)
    simp only [List.map_cons, environToEnvSetAux, splitEq_join k v hk, List.foldl_cons]
    exact ih (insertC m k v) (fun q hq => hkeys q (List.mem_cons_of_mem _ hq))

/-- C9: EnvironToEnvSet (and the identical loop of EnvironToMap) fails
with ErrInvalidEnviron exactly when some input line contains no equals
sign, in which case no mapping is returned; otherwise it builds the
mapping binding, for each line, the prefix before the first equals sign
to the entire remainder of the line, so values containing an equals sign
are preserved intact. -/
theorem c9_environ_to_envset (environ : List CStr) :
    (EnvironToEnvSet environ = Except.error Err.invalidEnviron ↔
      ∃ line ∈ environ, ¬ '=' ∈ line)
    ∧ (∀ ks : CEnvSet, environ = ks.map (fun p => p.1 ++ '=' :: p.2) →
      (∀ p ∈ ks, ¬ '=' ∈ p.1) →
      EnvironToEnvSet environ =
        Except.ok (ks.foldl (fun acc p => insertC acc p.1 p.2) [])) := by
  constructor
  · rw [EnvironToEnvSet, environToEnvSetAux_error_iff environ []]
    constructor
    · rintro ⟨line, hmem, hnone⟩
      exact ⟨line, hmem, (splitEq_eq_none_iff line).mp hnone⟩
    · rintro ⟨line, hmem, hno⟩
      exact ⟨line, hmem, (splitEq_eq_none_iff line).mpr hno⟩
  · intro ks henv hkeys
    rw [EnvironToEnvSet, henv]
    exact environToEnvSetAux_join ks [] hkeys

/-- C9 witness: a line without an equals sign fails the whole operation,
and a value containing an equals sign is preserved intact, via the
theorem at concrete inputs. -/
theorem c9_environ_to_envset_witness :
    EnvironToEnvSet [['A', '=', '1'], ['B']] = Except.error Err.invalidEnviron
    ∧ EnvironToEnvSet [['A', '=', '1', '=', '2']] =
      Except.ok [(['A'], ['1', '=', '2'])] := by
  constructor
  · exact (c9_environ_to_envset [['A', '=', '1'], ['B']]).1.mpr
      ⟨['B'], by simp, by decide⟩
  · exact (c9_environ_to_envset [['A', '=', '1', '=', '2']]).2
      [(['A'], ['1', '=', '2'])] (by decide) (by decide)

theorem insertC_of_not_mem (acc : CEnvSet) (k : CStr) (v : CStr)
    (h : ¬ k ∈ acc.map Prod.fst) : insertC acc k v = acc ++ [(k, v)] := by
  induction acc with
  | nil => rfl
  | cons p acc ih =>
    obtain ⟨k1, v1⟩ := p
    have hk1 : ¬ k1 = k := by
      intro hc
      exact h (by simp [hc])
    simp only [insertC, if_neg hk1, List.cons_append, List.cons.injEq, true_and]
    exact ih (fun hc => h (by simp at hc ⊢; exact Or.inr hc))

theorem foldl_insertC_rebuild (m : CEnvSet) :
    ∀ acc : CEnvSet, (m.map Prod.fst).Nodup →
      (∀ k ∈ m.map Prod.fst, ¬ k ∈ acc.map Prod.fst) →
      m.foldl (fun acc p => insertC acc p.1 p.2) acc = acc ++ m := by
  induction m with
  | nil => intro acc _ _; simp
  | cons p m ih =>
    intro acc hnodup hdisj
    obtain ⟨k, v⟩ := p
    have hacc : ¬ k ∈ acc.map Prod.fst := hdisj k (by simp)
    have hnodup2 : (m.map Prod.fst).Nodup := by
      simp only [List.map_cons, List.nodup_cons] at hnodup
      exact hnodup.2
    have hknotm : ¬ k ∈ m.map Prod.fst := by
      simp only [List.map_cons, List.nodup_cons] at hnodup
      exact hnodup.1
    have hdisj2 : ∀ k1 ∈ m.map Prod.fst, ¬ k1 ∈ (acc ++ [(k, v)]).map Prod.fst := by
      intro k1 hk1
      simp only [List.map_append, List.mem_append, List.map_cons, List.map_nil,
        List.mem_singleton]
      rintro (hc | hc)
      · exact hdisj k1 (by simp [hk1]) hc
      · exact hknotm (hc ▸ hk1)
    simp only [List.foldl_cons, insertC_of_not_mem acc k v hacc]
    rw [ih (acc ++ [(k, v)]) hnodup2 hdisj2]
    simp

/-- C10: for every EnvSet whose keys contain no equals sign (keys unique
as in any Go map, values arbitrary and free to contain equals signs),
parsing the formatted lines reproduces the mapping exactly:
EnvironToEnvSet after EnvSetToEnviron is the identity under this key
restriction. -/
theorem c10_transform_roundtrip (m : CEnvSet)
    (hkeys : ∀ p ∈ m, ¬ '=' ∈ p.1)
    (hnodup : (m.map Prod.fst).Nodup) :
    EnvironToEnvSet (EnvSetToEnviron m) = Except.ok m := by
  have h := (c9_environ_to_envset (EnvSetToEnviron m)).2 m rfl hkeys
  rw [h, foldl_insertC_rebuild m [] hnodup (by simp)]
  simp

/-- C10 witness: a two-entry mapping whose second value contains an
equals sign round-trips exactly, via the theorem at a concrete input. -/
theorem c10_transform_roundtrip_witness :
    (∀ p ∈ [(['A'], ['x']), (['B'], ['1', '=', '2'])], ¬ '=' ∈ Prod.fst p)
    ∧ EnvironToEnvSet (EnvSetToEnviron [(['A'], ['x']), (['B'], ['1', '=', '2'])]) =
      Except.ok [(['A'], ['x']), (['B'], ['1', '=', '2'])] :=
  ⟨by decide, c10_transform_roundtrip [(['A'], ['x']), (['B'], ['1', '=', '2'])]
    (by decide) (by decide)⟩

/-- Concatenation of struct shapes, to speak about a struct as a
processed prefix followed by the remaining fields. -/
def appendF : Fields → Fields → Fields
  | Fields.nil, gs => gs
  | Fields.cons tag exported t rest, gs => Fields.cons tag exported t (appendF rest gs)

/-- Concatenation of field value lists. -/
def appendV : Vals → Vals → Vals
  | Vals.nil, ws => ws
  | Vals.cons v vs, ws => Vals.cons v (appendV vs ws)

theorem ValMatches_strct_elim (fs2 : Fields) (v : Val)
    (h : ValMatches (Ty.strct fs2) v = true) :
    ∃ ws, v = Val.vstrct ws ∧ ValsMatch fs2 ws = true := by
  cases v <;> simp [ValMatches] at h ⊢
  assumption

theorem unmarshalFields_append :
    ∀ (fs : Fields) (vs : Vals) (gs : Fields) (ws : Vals) (es : EnvSet),
      ValsMatch fs vs = true →
      unmarshalFields es (appendF fs gs) (appendV vs ws) =
        (match unmarshalFields es fs vs with
         | (es1, vs1, some e) => (es1, appendV vs1 ws, some e)
         | (es1, vs1, none) =>
           ((unmarshalFields es1 gs ws).1, appendV vs1 (unmarshalFields es1 gs ws).2.1,
             (unmarshalFields es1 gs ws).2.2))
  | Fields.nil, vs, gs, ws, es, hm => by
    cases vs with
    | nil => simp [appendF, appendV, unmarshalFields]
    | cons v vs2 => simp [ValsMatch] at hm
  | Fields.cons tag exported t rest, vs, gs, ws, es, hm => by
    cases vs with
    | nil => simp [ValsMatch] at hm
    | cons v vs2 =>
      rw [ValsMatch, Bool.and_eq_true] at hm
      obtain ⟨hm1, hm2⟩ := hm
      have ih := fun es3 => unmarshalFields_append rest vs2 gs ws es3 hm2
      by_cases hts : ∃ fs2, t = Ty.strct fs2
      · obtain ⟨fs2, rfl⟩ := hts
        obtain ⟨ws2, rfl, hmw⟩ := ValMatches_strct_elim fs2 v hm1
        cases exported with
        | false =>
          simp only [appendF, appendV, unmarshalFields_cons_struct_false]
          rw [ih es]
          rcases hr : unmarshalFields es rest vs2 with ⟨es1, vs1, err⟩
          cases err <;> simp [appendV]
        | true =>
          simp only [appendF, appendV, unmarshalFields_cons_struct_true]
          rcases hn : unmarshalFields es fs2 ws2 with ⟨es2, ws2b, errn⟩
          cases errn with
          | some e => simp [appendV]
          | none =>
            cases hts2 : tagStep es2 tag true (Ty.strct fs2) (Val.vstrct ws2b) with
            | fail es3 v3 e => simp [hts2, appendV]
            | next es3 v3 =>
              simp only [hts2]
              rw [ih es3]
              rcases hr : unmarshalFields es3 rest vs2 with ⟨es4, vs4, err⟩
              cases err <;> simp [appendV]
      · have hsv : ∀ (fs2 : Fields) (ws0 : Vals),
            ¬ (t = Ty.strct fs2 ∧ v = Val.vstrct ws0) := by
          rintro fs2 ws0 ⟨hc, -⟩
          exact hts ⟨fs2, hc⟩
        simp only [appendF, appendV]
        rw [unmarshalFields_cons_notStruct es tag exported t v (appendF rest gs)
          (appendV vs2 ws) hsv, unmarshalFields_cons_notStruct es tag exported t v rest vs2 hsv]
        cases hts2 : tagStep es tag exported t v with
        | fail es3 v3 e => simp [hts2, appendV]
        | next es3 v3 =>
          simp only [hts2]
          rw [ih es3]
          rcases hr : unmarshalFields es3 rest vs2 with ⟨es4, vs4, err⟩
          cases err <;> simp [appendV]

/-- C5: the first error aborts the traversal immediately.  If the field
loop fails on a prefix of the record, appending any further fields
returns the same mapping, the same first error, and leaves every later
field value untouched (no later field is processed); and if the prefix
succeeds, its mutations to the record and the mapping persist unchanged
while the remaining fields are processed from the mutated mapping (no
rollback of partial mutations). -/
theorem c5_first_error_aborts (fs gs : Fields) (vs ws : Vals) (es es1 : EnvSet)
    (vs1 : Vals) (hm : ValsMatch fs vs = true) :
    (∀ e : Err, unmarshalFields es fs vs = (es1, vs1, some e) →
      unmarshalFields es (appendF fs gs) (appendV vs ws) = (es1, appendV vs1 ws, some e))
    ∧ (unmarshalFields es fs vs = (es1, vs1, none) →
      unmarshalFields es (appendF fs gs) (appendV vs ws) =
        ((unmarshalFields es1 gs ws).1, appendV vs1 (unmarshalFields es1 gs ws).2.1,
          (unmarshalFields es1 gs ws).2.2)) := by
  constructor
  · intro e h
    rw [unmarshalFields_append fs vs gs ws es hm, h]
  · intro h
    rw [unmarshalFields_append fs vs gs ws es hm, h]

/-- C5 witness: a record with an int field BAD bound to an unparsable
value followed by a string field S; the traversal stops at BAD with the
strconv error, the string field is never processed, and the earlier
consumed mapping entry stays consumed, via the theorem at concrete
inputs. -/
theorem c5_first_error_aborts_witness :
    ValsMatch (Fields.cons "A" true Ty.str (Fields.cons "BAD" true Ty.int Fields.nil))
        (Vals.cons (Val.vstr "") (Vals.cons (Val.vint 0) Vals.nil)) = true
    ∧ unmarshalFields [("A", "x"), ("BAD", "zzz"), ("S", "s")]
        (appendF (Fields.cons "A" true Ty.str (Fields.cons "BAD" true Ty.int Fields.nil))
          (Fields.cons "S" true Ty.str Fields.nil))
        (appendV (Vals.cons (Val.vstr "") (Vals.cons (Val.vint 0) Vals.nil))
          (Vals.cons (Val.vstr "") Vals.nil)) =
      ([("BAD", "zzz"), ("S", "s")],
        appendV (Vals.cons (Val.vstr "x") (Vals.cons (Val.vint 0) Vals.nil))
          (Vals.cons (Val.vstr "") Vals.nil), some (Err.numError "zzz")) := by
  refine ⟨by decide, ?_⟩
  exact (c5_first_error_aborts
    (Fields.cons "A" true Ty.str (Fields.cons "BAD" true Ty.int Fields.nil))
    (Fields.cons "S" true Ty.str Fields.nil)
    (Vals.cons (Val.vstr "") (Vals.cons (Val.vint 0) Vals.nil))
    (Vals.cons (Val.vstr "") Vals.nil)
    [("A", "x"), ("BAD", "zzz"), ("S", "s")]
    [("BAD", "zzz"), ("S", "s")]
    (Vals.cons (Val.vstr "x") (Vals.cons (Val.vint 0) Vals.nil))
    (by decide)).1 (Err.numError "zzz") rfl

/-- The env tags the Unmarshal traversal can claim keys for: for each
field, an exported struct-kind field contributes the tags of its nested
fields (the recursion) and then its own tag, an unexported struct-kind
field is skipped entirely by the continue and contributes nothing, and
any other field contributes its own tag; empty tags bind nothing. -/
def tagsOfFields : Fields → List String
  | Fields.nil => []
  | Fields.cons tag exported t rest =>
    (match t with
     | Ty.strct fs =>
       if exported then tagsOfFields fs ++ (if tag = "" then [] else [tag]) else []
     | _ => if tag = "" then [] else [tag]) ++ tagsOfFields rest

theorem tagStep_next_es (es : EnvSet) (tag : String) (exported : Bool) (t : Ty) (v : Val)
    (es1 : EnvSet) (v1 : Val) (h : tagStep es tag exported t v = StepRes.next es1 v1) :
    es1 = es ∨ (¬ tag = "" ∧ exported = true ∧ es1 = deleteEnv es tag) := by
  unfold tagStep at h
  by_cases h1 : tag = ""
  · rw [if_pos h1] at h
    cases h
    exact Or.inl rfl
  · rw [if_neg h1] at h
    by_cases h2 : exported = false
    · rw [if_pos h2] at h
      cases h
    · rw [if_neg h2] at h
      cases hl : lookupEnv es tag with
      | none =>
        simp only [hl] at h
        cases h
        exact Or.inl rfl
      | some envVar =>
        simp only [hl] at h
        cases hs : set t envVar with
        | error e2 => simp [hs] at h
        | ok v2 =>
          simp only [hs] at h
          cases h
          exact Or.inr ⟨h1, by simpa using h2, rfl⟩

theorem tagStep_fail_es (es : EnvSet) (tag : String) (exported : Bool) (t : Ty) (v : Val)
    (es1 : EnvSet) (v1 : Val) (e : Err)
    (h : tagStep es tag exported t v = StepRes.fail es1 v1 e) : es1 = es := by
  unfold tagStep at h
  by_cases h1 : tag = ""
  · rw [if_pos h1] at h
    cases h
  · rw [if_neg h1] at h
    by_cases h2 : exported = false
    · rw [if_pos h2] at h
      cases h
      rfl
    · rw [if_neg h2] at h
      cases hl : lookupEnv es tag with
      | none => simp [hl] at h
      | some envVar =>
        simp only [hl] at h
        cases hs : set t envVar with
        | error e2 =>
          simp only [hs, StepRes.fail.injEq] at h
          exact h.1.symm
        | ok v2 => simp [hs] at h

theorem tagStep_next_tag_absent (es : EnvSet) (tag : String) (exported : Bool) (t : Ty)
    (v : Val) (es1 : EnvSet) (v1 : Val) (htag : ¬ tag = "")
    (h : tagStep es tag exported t v = StepRes.next es1 v1) : lookupEnv es1 tag = none := by
  unfold tagStep at h
  rw [if_neg htag] at h
  by_cases h2 : exported = false
  · rw [if_pos h2] at h
    cases h
  · rw [if_neg h2] at h
    cases hl : lookupEnv es tag with
    | none =>
      simp only [hl] at h
      cases h
      exact hl
    | some envVar =>
      simp only [hl] at h
      cases hs : set t envVar with
      | error e2 => simp [hs] at h
      | ok v2 =>
        simp only [hs] at h
        cases h
        simp [lookupEnv_deleteEnv]

theorem unmarshalFields_lookup_cases :
    ∀ (fs : Fields) (vs : Vals) (es : EnvSet) (k : String),
      lookupEnv (unmarshalFields es fs vs).1 k = lookupEnv es k ∨
      lookupEnv (unmarshalFields es fs vs).1 k = none
  | Fields.nil, vs, es, k => by simp [unmarshalFields]
  | Fields.cons tag exported t rest, Vals.nil, es, k => by simp [unmarshalFields]
  | Fields.cons tag exported t rest, Vals.cons v vs, es, k => by
    have ihrest := fun es1 => unmarshalFields_lookup_cases rest vs es1 k
    have hdel : ∀ (es0 : EnvSet),
        lookupEnv (deleteEnv es0 tag) k = lookupEnv es0 k ∨
        lookupEnv (deleteEnv es0 tag) k = none := by
      intro es0
      rw [lookupEnv_deleteEnv]
      by_cases hk : k = tag
      · simp [hk]
      · simp [hk]
    have hstep : ∀ (es0 es1 : EnvSet) (ex0 : Bool) (t0 : Ty) (v0 v1 : Val),
        tagStep es0 tag ex0 t0 v0 = StepRes.next es1 v1 →
        lookupEnv es1 k = lookupEnv es0 k ∨ lookupEnv es1 k = none := by
      intro es0 es1 ex0 t0 v0 v1 h
      rcases tagStep_next_es es0 tag ex0 t0 v0 es1 v1 h with rfl | ⟨-, -, rfl⟩
      · exact Or.inl rfl
      · exact hdel es0
    have htrans : ∀ (a b c : EnvSet),
        (lookupEnv a k = lookupEnv b k ∨ lookupEnv a k = none) →
        (lookupEnv b k = lookupEnv c k ∨ lookupEnv b k = none) →
        (lookupEnv a k = lookupEnv c k ∨ lookupEnv a k = none) := by
      intro a b c h1 h2
      rcases h1 with h1 | h1
      · rcases h2 with h2 | h2
        · exact Or.inl (h1.trans h2)
        · exact Or.inr (h1.trans h2)
      · exact Or.inr h1
    have hcomp : ∀ (es0 es1 : EnvSet),
        (lookupEnv es1 k = lookupEnv es0 k ∨ lookupEnv es1 k = none) →
        lookupEnv (unmarshalFields es1 rest vs).1 k = lookupEnv es0 k ∨
        lookupEnv (unmarshalFields es1 rest vs).1 k = none := by
      intro es0 es1 h1
      exact htrans (unmarshalFields es1 rest vs).1 es1 es0 (ihrest es1) h1
    by_cases hsv : ∃ (fs2 : Fields) (ws2 : Vals), t = Ty.strct fs2 ∧ v = Val.vstrct ws2
    · obtain ⟨fs2, ws2, rfl, rfl⟩ := hsv
      cases exported with
      | false =>
        rw [unmarshalFields_cons_struct_false]
        exact ihrest es
      | true =>
        have ihn := unmarshalFields_lookup_cases fs2 ws2 es k
        rw [unmarshalFields_cons_struct_true]
        rcases hn : unmarshalFields es fs2 ws2 with ⟨es2, ws2b, errn⟩
        rw [hn] at ihn
        cases errn with
        | some e => exact ihn
        | none =>
          cases hts2 : tagStep es2 tag true (Ty.strct fs2) (Val.vstrct ws2b) with
          | fail es3 v3 e =>
            simp only [hts2]
            obtain rfl := tagStep_fail_es es2 tag true (Ty.strct fs2) (Val.vstrct ws2b)
              es3 v3 e hts2
            exact ihn
          | next es3 v3 =>
            simp only [hts2]
            exact hcomp es es3 (htrans es3 es2 es
              (hstep es2 es3 true (Ty.strct fs2) (Val.vstrct ws2b) v3 hts2) ihn)
    · rw [unmarshalFields_cons_notStruct es tag exported t v rest vs
        (fun fs2 ws2 hc => hsv ⟨fs2, ws2, hc⟩)]
      cases hts2 : tagStep es tag exported t v with
      | fail es3 v3 e =>
        simp only [hts2]
        obtain rfl := tagStep_fail_es es tag exported t v es3 v3 e hts2
        exact Or.inl rfl
      | next es3 v3 =>
        simp only [hts2]
        exact hcomp es es3 (hstep es es3 exported t v v3 hts2)

theorem unmarshalFields_preserves_none (fs : Fields) (vs : Vals) (es : EnvSet) (k : String)
    (h : lookupEnv es k = none) : lookupEnv (unmarshalFields es fs vs).1 k = none := by
  rcases unmarshalFields_lookup_cases fs vs es k with h2 | h2
  · rw [h2, h]
  · exact h2

theorem mem_tags_rest (k tag : String) (ex : Bool) (t : Ty) (rest : Fields)
    (h : k ∈ tagsOfFields rest) : k ∈ tagsOfFields (Fields.cons tag ex t rest) := by
  cases t <;> simp [tagsOfFields, List.mem_append, h]

theorem mem_tags_nested (k tag : String) (fs2 rest : Fields)
    (h : k ∈ tagsOfFields fs2) :
    k ∈ tagsOfFields (Fields.cons tag true (Ty.strct fs2) rest) := by
  simp [tagsOfFields, List.mem_append, h]

theorem mem_tags_self_struct (tag : String) (fs2 rest : Fields) (h1 : ¬ tag = "") :
    tag ∈ tagsOfFields (Fields.cons tag true (Ty.strct fs2) rest) := by
  simp [tagsOfFields, List.mem_append, if_neg h1]

theorem mem_tags_self_nonstruct (tag : String) (ex : Bool) (t : Ty) (rest : Fields)
    (h1 : ¬ tag = "") (ht : ∀ fs2, ¬ t = Ty.strct fs2) :
    tag ∈ tagsOfFields (Fields.cons tag ex t rest) := by
  cases t with
  | strct fs2 => exact absurd rfl (ht fs2)
  | str => simp [tagsOfFields, List.mem_append, if_neg h1]
  | boolean => simp [tagsOfFields, List.mem_append, if_neg h1]
  | int => simp [tagsOfFields, List.mem_append, if_neg h1]
  | ptr t2 => simp [tagsOfFields, List.mem_append, if_neg h1]
  | unsupported => simp [tagsOfFields, List.mem_append, if_neg h1]

theorem unmarshalFields_frame :
    ∀ (fs : Fields) (vs : Vals) (es : EnvSet) (k : String), ¬ k ∈ tagsOfFields fs →
      lookupEnv (unmarshalFields es fs vs).1 k = lookupEnv es k
  | Fields.nil, vs, es, k, _ => by simp [unmarshalFields]
  | Fields.cons tag exported t rest, Vals.nil, es, k, _ => by simp [unmarshalFields]
  | Fields.cons tag exported t rest, Vals.cons v vs, es, k, hnot => by
    have hrest : ¬ k ∈ tagsOfFields rest :=
      fun hc => hnot (mem_tags_rest k tag exported t rest hc)
    have ihrest := fun es1 => unmarshalFields_frame rest vs es1 k hrest
    have hstep : ∀ (es0 es1 : EnvSet) (ex0 : Bool) (t0 : Ty) (v0 v1 : Val),
        (¬ tag = "" → ex0 = true → ¬ k = tag) →
        tagStep es0 tag ex0 t0 v0 = StepRes.next es1 v1 →
        lookupEnv es1 k = lookupEnv es0 k := by
      intro es0 es1 ex0 t0 v0 v1 hk h
      rcases tagStep_next_es es0 tag ex0 t0 v0 es1 v1 h with rfl | ⟨h1, h2, rfl⟩
      · rfl
      · rw [lookupEnv_deleteEnv, if_neg (hk h1 h2)]
    by_cases hsv : ∃ (fs2 : Fields) (ws2 : Vals), t = Ty.strct fs2 ∧ v = Val.vstrct ws2
    · obtain ⟨fs2, ws2, rfl, rfl⟩ := hsv
      cases exported with
      | false =>
        rw [unmarshalFields_cons_struct_false]
        exact ihrest es
      | true =>
        have hnested : ¬ k ∈ tagsOfFields fs2 :=
          fun hc => hnot (mem_tags_nested k tag fs2 rest hc)
        have hktag : ¬ tag = "" → ¬ k = tag := fun h1 hc =>
          hnot (hc ▸ mem_tags_self_struct tag fs2 rest h1)
        have ihn := unmarshalFields_frame fs2 ws2 es k hnested
        rw [unmarshalFields_cons_struct_true]
        rcases hn : unmarshalFields es fs2 ws2 with ⟨es2, ws2b, errn⟩
        rw [hn] at ihn
        cases errn with
        | some e => exact ihn
        | none =>
          cases hts2 : tagStep es2 tag true (Ty.strct fs2) (Val.vstrct ws2b) with
          | fail es3 v3 e =>
            simp only [hts2]
            obtain rfl := tagStep_fail_es es2 tag true (Ty.strct fs2) (Val.vstrct ws2b)
              es3 v3 e hts2
            exact ihn
          | next es3 v3 =>
            simp only [hts2]
            rw [ihrest es3,
              hstep es2 es3 true (Ty.strct fs2) (Val.vstrct ws2b) v3
                (fun h1 _ => hktag h1) hts2, ihn]
    · have hktag : ¬ tag = "" → exported = true → ¬ k = tag := by
        intro h1 hex hc
        by_cases hts : ∃ fs2, t = Ty.strct fs2
        · obtain ⟨fs2, rfl⟩ := hts
          subst hex
          exact hnot (hc ▸ mem_tags_self_struct tag fs2 rest h1)
        · exact hnot (hc ▸ mem_tags_self_nonstruct tag exported t rest h1
            (fun fs2 hc2 => hts ⟨fs2, hc2⟩))
      rw [unmarshalFields_cons_notStruct es tag exported t v rest vs
        (fun fs2 ws2 hc => hsv ⟨fs2, ws2, hc⟩)]
      cases hts2 : tagStep es tag exported t v with
      | fail es3 v3 e =>
        simp only [hts2]
        obtain rfl := tagStep_fail_es es tag exported t v es3 v3 e hts2
        rfl
      | next es3 v3 =>
        simp only [hts2]
        rw [ihrest es3, hstep es es3 exported t v v3 hktag hts2]

theorem mem_tags_struct_false_elim (k tag : String) (fs2 rest : Fields)
    (h : k ∈ tagsOfFields (Fields.cons tag false (Ty.strct fs2) rest)) :
    k ∈ tagsOfFields rest := by
  simpa [tagsOfFields, List.mem_append] using h

theorem mem_tags_struct_true_elim (k tag : String) (fs2 rest : Fields)
    (h : k ∈ tagsOfFields (Fields.cons tag true (Ty.strct fs2) rest)) :
    k ∈ tagsOfFields fs2 ∨ (¬ tag = "" ∧ k = tag) ∨ k ∈ tagsOfFields rest := by
  by_cases h1 : tag = ""
  · simp only [tagsOfFields, List.mem_append, if_pos h1, if_true] at h
    rcases h with (h | h) | h
    · exact Or.inl h
    · exact absurd h (List.not_mem_nil k)
    · exact Or.inr (Or.inr h)
  · simp only [tagsOfFields, List.mem_append, if_neg h1, if_true,
      List.mem_singleton] at h
    rcases h with (h | h) | h
    · exact Or.inl h
    · exact Or.inr (Or.inl ⟨h1, h⟩)
    · exact Or.inr (Or.inr h)

theorem mem_tags_nonstruct_elim (k tag : String) (ex : Bool) (t : Ty) (rest : Fields)
    (ht : ∀ fs2, ¬ t = Ty.strct fs2)
    (h : k ∈ tagsOfFields (Fields.cons tag ex t rest)) :
    (¬ tag = "" ∧ k = tag) ∨ k ∈ tagsOfFields rest := by
  have hred : tagsOfFields (Fields.cons tag ex t rest) =
      (if tag = "" then [] else [tag]) ++ tagsOfFields rest := by
    cases t with
    | strct fs2 => exact absurd rfl (ht fs2)
    | str => simp [tagsOfFields]
    | boolean => simp [tagsOfFields]
    | int => simp [tagsOfFields]
    | ptr t2 => simp [tagsOfFields]
    | unsupported => simp [tagsOfFields]
  rw [hred] at h
  by_cases h1 : tag = ""
  · rw [if_pos h1] at h
    exact Or.inr (by simpa using h)
  · rw [if_neg h1] at h
    rcases List.mem_append.mp h with h | h
    · exact Or.inl ⟨h1, by simpa using h⟩
    · exact Or.inr h

theorem unmarshalFields_consume :
    ∀ (fs : Fields) (vs : Vals) (es : EnvSet) (k : String),
      ValsMatch fs vs = true →
      (unmarshalFields es fs vs).2.2 = none →
      k ∈ tagsOfFields fs →
      lookupEnv (unmarshalFields es fs vs).1 k = none
  | Fields.nil, vs, es, k, _, _, hmem => by simp [tagsOfFields] at hmem
  | Fields.cons tag exported t rest, Vals.nil, es, k, hm, _, _ => by
    simp [ValsMatch] at hm
  | Fields.cons tag exported t rest, Vals.cons v vs, es, k, hm, hsucc, hmem => by
    rw [ValsMatch, Bool.and_eq_true] at hm
    obtain ⟨hm1, hm2⟩ := hm
    have hdelnone : ∀ (es0 : EnvSet) (j : String), lookupEnv es0 k = none →
        lookupEnv (deleteEnv es0 j) k = none := by
      intro es0 j h
      rw [lookupEnv_deleteEnv]
      by_cases hk : k = j
      · simp [hk]
      · simp [hk, h]
    by_cases hts : ∃ fs2, t = Ty.strct fs2
    · obtain ⟨fs2, rfl⟩ := hts
      obtain ⟨ws2, rfl, hmw⟩ := ValMatches_strct_elim fs2 v hm1
      cases exported with
      | false =>
        rw [unmarshalFields_cons_struct_false] at hsucc ⊢
        exact unmarshalFields_consume rest vs es k hm2 hsucc
          (mem_tags_struct_false_elim k tag fs2 rest hmem)
      | true =>
        rw [unmarshalFields_cons_struct_true] at hsucc ⊢
        rcases hn : unmarshalFields es fs2 ws2 with ⟨es2, ws2b, errn⟩
        rw [hn] at hsucc
        cases errn with
        | some e => simp at hsucc
        | none =>
          cases hts2 : tagStep es2 tag true (Ty.strct fs2) (Val.vstrct ws2b) with
          | fail es3 v3 e =>
            simp only [hts2] at hsucc
            simp at hsucc
          | next es3 v3 =>
            simp only [hts2] at hsucc ⊢
            rcases mem_tags_struct_true_elim k tag fs2 rest hmem with hmem2 | ⟨h1, rfl⟩ | hmem2
            · have hnested := unmarshalFields_consume fs2 ws2 es k hmw (by rw [hn]) hmem2
              rw [hn] at hnested
              have hes3 : lookupEnv es3 k = none := by
                rcases tagStep_next_es es2 tag true (Ty.strct fs2) (Val.vstrct ws2b)
                  es3 v3 hts2 with rfl | ⟨-, -, rfl⟩
                · exact hnested
                · exact hdelnone es2 tag hnested
              exact unmarshalFields_preserves_none rest vs es3 k hes3
            · have hes3 : lookupEnv es3 k = none :=
                tagStep_next_tag_absent es2 k true (Ty.strct fs2) (Val.vstrct ws2b)
                  es3 v3 h1 hts2
              exact unmarshalFields_preserves_none rest vs es3 k hes3
            · exact unmarshalFields_consume rest vs es3 k hm2 hsucc hmem2
    · have hsv : ∀ (fs2 : Fields) (ws2 : Vals), ¬ (t = Ty.strct fs2 ∧ v = Val.vstrct ws2) :=
        fun fs2 ws2 hc => hts ⟨fs2, hc.1⟩
      rw [unmarshalFields_cons_notStruct es tag exported t v rest vs hsv] at hsucc ⊢
      cases hts2 : tagStep es tag exported t v with
      | fail es3 v3 e =>
        simp only [hts2] at hsucc
        simp at hsucc
      | next es3 v3 =>
        simp only [hts2] at hsucc ⊢
        rcases mem_tags_nonstruct_elim k tag exported t rest
          (fun fs2 hc => hts ⟨fs2, hc⟩) hmem with ⟨h1, rfl⟩ | hmem2
        · have hes3 : lookupEnv es3 k = none :=
            tagStep_next_tag_absent es k exported t v es3 v3 h1 hts2
          exact unmarshalFields_preserves_none rest vs es3 k hes3
        · exact unmarshalFields_consume rest vs es3 k hm2 hsucc hmem2

/-- C2: consumption and frame of the mapping.  For every mapping and
struct pointer on which Unmarshal succeeds, afterwards every key the
record binds (its active env tags) is absent from the mapping, and every
other key is still present with its original, unchanged value. -/
theorem c2_consumption (es : EnvSet) (fs : Fields) (vs : Vals)
    (hm : ValsMatch fs vs = true)
    (hsucc : (Unmarshal es (Arg.toPtr (Ty.strct fs) (Val.vstrct vs))).2.2 = none) :
    (∀ k ∈ tagsOfFields fs,
      lookupEnv (Unmarshal es (Arg.toPtr (Ty.strct fs) (Val.vstrct vs))).1 k = none)
    ∧ (∀ k, ¬ k ∈ tagsOfFields fs →
      lookupEnv (Unmarshal es (Arg.toPtr (Ty.strct fs) (Val.vstrct vs))).1 k =
        lookupEnv es k) := by
  constructor
  · intro k hk
    exact unmarshalFields_consume fs vs es k hm hsucc hk
  · intro k hk
    exact unmarshalFields_frame fs vs es k hk

/-- C2 witness: a record with tagged field A and an untagged field,
decoded from a mapping holding A and X, consumes A and leaves X bound to
its original value, via the theorem at concrete inputs. -/
theorem c2_consumption_witness :
    ValsMatch (Fields.cons "A" true Ty.str (Fields.cons "" true Ty.int Fields.nil))
        (Vals.cons (Val.vstr "") (Vals.cons (Val.vint 0) Vals.nil)) = true
    ∧ lookupEnv (Unmarshal [("A", "1"), ("X", "2")]
        (Arg.toPtr (Ty.strct (Fields.cons "A" true Ty.str (Fields.cons "" true Ty.int
          Fields.nil)))
          (Val.vstrct (Vals.cons (Val.vstr "") (Vals.cons (Val.vint 0) Vals.nil))))).1
        "A" = none
    ∧ lookupEnv (Unmarshal [("A", "1"), ("X", "2")]
        (Arg.toPtr (Ty.strct (Fields.cons "A" true Ty.str (Fields.cons "" true Ty.int
          Fields.nil)))
          (Val.vstrct (Vals.cons (Val.vstr "") (Vals.cons (Val.vint 0) Vals.nil))))).1
        "X" = lookupEnv [("A", "1"), ("X", "2")] "X" := by
  have h := c2_consumption [("A", "1"), ("X", "2")]
    (Fields.cons "A" true Ty.str (Fields.cons "" true Ty.int Fields.nil))
    (Vals.cons (Val.vstr "") (Vals.cons (Val.vint 0) Vals.nil))
    (by decide) rfl
  exact ⟨by decide, h.1 "A" (by decide), h.2 "X" (by decide)⟩

/-- Is a type one of the built-in scalar kinds the round-trip claim is
about: string, bool, int. -/
def isScalar : Ty → Bool
  | Ty.str => true
  | Ty.boolean => true
  | Ty.int => true
  | _ => false

/-- A flat scalar record shape: every field is of a built-in scalar kind
and every tagged field is exported. -/
def scalarFields : Fields → Bool
  | Fields.nil => true
  | Fields.cons tag ex t rest => isScalar t && (decide (tag = "") || ex) && scalarFields rest

/-- Do all int fields hold values representable in a signed 64-bit
integer, as every Go int does. -/
def valsInRange : Fields → Vals → Bool
  | Fields.nil, _ => true
  | Fields.cons _ _ Ty.int rest, Vals.cons (Val.vint n) vs =>
    (decide (-(2 : Int) ^ 63 ≤ n) && decide (n < 2 ^ 63)) && valsInRange rest vs
  | Fields.cons _ _ _ rest, Vals.cons _ vs => valsInRange rest vs
  | _, _ => true

/-- The mapping Marshal produces for a flat scalar record: one formatted
entry per tagged field, in declaration order. -/
def entriesOf : Fields → Vals → EnvSet
  | Fields.nil, _ => []
  | Fields.cons tag _ _ rest, Vals.cons v vs =>
    (if tag = "" then [] else [(tag, format v)]) ++ entriesOf rest vs
  | _, _ => []

/-- The field values a fresh zero record holds after decoding that
mapping: tagged fields take the original record's values, untagged
fields stay at their zero values. -/
def decodedVals : Fields → Vals → Vals
  | Fields.nil, _ => Vals.nil
  | Fields.cons tag _ t rest, Vals.cons v vs =>
    Vals.cons (if tag = "" then zeroVal t else v) (decodedVals rest vs)
  | _, _ => Vals.nil

theorem insertEnv_of_not_mem (acc : EnvSet) (k v : String)
    (h : ¬ k ∈ acc.map Prod.fst) : insertEnv acc k v = acc ++ [(k, v)] := by
  induction acc with
  | nil => rfl
  | cons p acc ih =>
    obtain ⟨k1, v1⟩ := p
    have hk1 : ¬ k1 = k := by
      intro hc
      exact h (by simp [hc])
    simp only [insertEnv, if_neg hk1, List.cons_append, List.cons.injEq, true_and]
    exact ih (fun hc => h (by simp at hc ⊢; exact Or.inr hc))

theorem tags_cons_scalar (tag : String) (ex : Bool) (t : Ty) (rest : Fields)
    (hsc : isScalar t = true) :
    tagsOfFields (Fields.cons tag ex t rest) =
      (if tag = "" then [] else [tag]) ++ tagsOfFields rest := by
  cases t with
  | str => simp [tagsOfFields]
  | boolean => simp [tagsOfFields]
  | int => simp [tagsOfFields]
  | ptr t2 => simp [isScalar] at hsc
  | strct fs2 => simp [isScalar] at hsc
  | unsupported => simp [isScalar] at hsc

theorem entriesOf_keys :
    ∀ (fs : Fields) (vs : Vals), ValsMatch fs vs = true → scalarFields fs = true →
      (entriesOf fs vs).map Prod.fst = tagsOfFields fs
  | Fields.nil, vs, hm, _ => by
    cases vs with
    | nil => rfl
    | cons v vs => simp [ValsMatch] at hm
  | Fields.cons tag ex t rest, Vals.nil, hm, _ => by simp [ValsMatch] at hm
  | Fields.cons tag ex t rest, Vals.cons v vs, hm, hsc => by
    rw [ValsMatch, Bool.and_eq_true] at hm
    rw [scalarFields, Bool.and_eq_true, Bool.and_eq_true] at hsc
    obtain ⟨⟨hsc1, -⟩, hsc3⟩ := hsc
    rw [tags_cons_scalar tag ex t rest hsc1]
    have ih := entriesOf_keys rest vs hm.2 hsc3
    by_cases h1 : tag = ""
    · simp [entriesOf, if_pos h1, ih]
    · simp [entriesOf, if_neg h1, ih]

theorem set_format_scalar (t : Ty) (v : Val) (hm : ValMatches t v = true)
    (hsc : isScalar t = true)
    (hr : ∀ n : Int, v = Val.vint n → -(2 : Int) ^ 63 ≤ n ∧ n < 2 ^ 63) :
    set t (format v) = Except.ok v := by
  cases t with
  | str =>
    cases v <;> simp [ValMatches] at hm
    rfl
  | boolean =>
    cases v with
    | vbool b => simp [set, parseBool_encodeBool b]
    | vstr s => simp [ValMatches] at hm
    | vint n => simp [ValMatches] at hm
    | vnil => simp [ValMatches] at hm
    | vptr w => simp [ValMatches] at hm
    | vstrct ws => simp [ValMatches] at hm
    | vunsup => simp [ValMatches] at hm
  | int =>
    cases v with
    | vint n =>
      obtain ⟨hr1, hr2⟩ := hr n rfl
      simp [set, format, atoi_itoa n hr1 hr2]
    | vstr s => simp [ValMatches] at hm
    | vbool b => simp [ValMatches] at hm
    | vnil => simp [ValMatches] at hm
    | vptr w => simp [ValMatches] at hm
    | vstrct ws => simp [ValMatches] at hm
    | vunsup => simp [ValMatches] at hm
  | ptr t2 => simp [isScalar] at hsc
  | strct fs2 => simp [isScalar] at hsc
  | unsupported => simp [isScalar] at hsc

theorem marshalFields_scalar :
    ∀ (fs : Fields) (vs : Vals) (acc : EnvSet),
      ValsMatch fs vs = true → scalarFields fs = true →
      (∀ k ∈ tagsOfFields fs, ¬ k ∈ acc.map Prod.fst) →
      (tagsOfFields fs).Nodup →
      marshalFields acc fs vs = Except.ok (acc ++ entriesOf fs vs)
  | Fields.nil, vs, acc, hm, _, _, _ => by
    cases vs with
    | nil => simp [marshalFields, entriesOf]
    | cons v vs => simp [ValsMatch] at hm
  | Fields.cons tag ex t rest, Vals.nil, acc, hm, _, _, _ => by simp [ValsMatch] at hm
  | Fields.cons tag ex t rest, Vals.cons v vs, acc, hm, hsc, hdisj, hnd => by
    rw [ValsMatch, Bool.and_eq_true] at hm
    rw [scalarFields, Bool.and_eq_true, Bool.and_eq_true] at hsc
    obtain ⟨⟨hsc1, -⟩, hsc3⟩ := hsc
    have hnotstruct : ∀ (fs2 : Fields) (ws2 : Vals),
        ¬ (t = Ty.strct fs2 ∧ v = Val.vstrct ws2) := by
      rintro fs2 ws2 ⟨rfl, -⟩
      simp [isScalar] at hsc1
    rw [marshalFields_cons_notStruct acc tag ex t v rest vs hnotstruct]
    have htagred : marshalTag tag t v =
        if tag = "" then none else some (tag, format v) := by
      cases t with
      | str => by_cases h1 : tag = "" <;> simp [marshalTag, h1]
      | boolean => by_cases h1 : tag = "" <;> simp [marshalTag, h1]
      | int => by_cases h1 : tag = "" <;> simp [marshalTag, h1]
      | ptr t2 => simp [isScalar] at hsc1
      | strct fs2 => simp [isScalar] at hsc1
      | unsupported => simp [isScalar] at hsc1
    rw [tags_cons_scalar tag ex t rest hsc1] at hdisj hnd
    by_cases h1 : tag = ""
    · rw [htagred, if_pos h1]
      show marshalFields acc rest vs = _
      simp only [if_pos h1, List.nil_append] at hdisj hnd
      rw [marshalFields_scalar rest vs acc hm.2 hsc3 hdisj hnd]
      simp [entriesOf, if_pos h1]
    · rw [htagred, if_neg h1]
      show marshalFields (insertEnv acc tag (format v)) rest vs = _
      simp only [if_neg h1, List.singleton_append, List.nodup_cons, List.mem_cons] at hdisj hnd
      have htacc : ¬ tag ∈ acc.map Prod.fst := hdisj tag (Or.inl rfl)
      rw [insertEnv_of_not_mem acc tag (format v) htacc]
      have hdisj2 : ∀ k ∈ tagsOfFields rest, ¬ k ∈ (acc ++ [(tag, format v)]).map Prod.fst := by
        intro k hk
        simp only [List.map_append, List.mem_append, List.map_cons, List.map_nil,
          List.mem_singleton]
        rintro (hc | hc)
        · exact hdisj k (Or.inr hk) hc
        · exact hnd.1 (hc ▸ hk)
      rw [marshalFields_scalar rest vs (acc ++ [(tag, format v)]) hm.2 hsc3 hdisj2 hnd.2]
      simp [entriesOf, if_neg h1]

theorem unmarshalFields_decode :
    ∀ (fs : Fields) (vs : Vals),
      ValsMatch fs vs = true → scalarFields fs = true →
      (tagsOfFields fs).Nodup → valsInRange fs vs = true →
      unmarshalFields (entriesOf fs vs) fs (zeroVals fs) = ([], decodedVals fs vs, none)
  | Fields.nil, vs, hm, _, _, _ => by
    cases vs with
    | nil => simp [entriesOf, zeroVals, unmarshalFields, decodedVals]
    | cons v vs => simp [ValsMatch] at hm
  | Fields.cons tag ex t rest, Vals.nil, hm, _, _, _ => by simp [ValsMatch] at hm
  | Fields.cons tag ex t rest, Vals.cons v vs, hm, hsc, hnd, hr => by
    rw [ValsMatch, Bool.and_eq_true] at hm
    rw [scalarFields, Bool.and_eq_true, Bool.and_eq_true] at hsc
    obtain ⟨⟨hsc1, hsc2⟩, hsc3⟩ := hsc
    have hrng : (∀ n : Int, v = Val.vint n → -(2 : Int) ^ 63 ≤ n ∧ n < 2 ^ 63)
        ∧ valsInRange rest vs = true := by
      cases t with
      | int =>
        cases v with
        | vint n =>
          rw [valsInRange, Bool.and_eq_true, Bool.and_eq_true] at hr
          refine ⟨?_, hr.2⟩
          rintro n2 h
          cases h
          exact ⟨by simpa using hr.1.1, by simpa using hr.1.2⟩
        | vstr s => simp [ValMatches] at hm
        | vbool b => simp [ValMatches] at hm
        | vnil => simp [ValMatches] at hm
        | vptr w => simp [ValMatches] at hm
        | vstrct ws => simp [ValMatches] at hm
        | vunsup => simp [ValMatches] at hm
      | str =>
        cases v with
        | vstr s => exact ⟨(fun n h => nomatch h), by simpa [valsInRange] using hr⟩
        | vbool b => simp [ValMatches] at hm
        | vint n => simp [ValMatches] at hm
        | vnil => simp [ValMatches] at hm
        | vptr w => simp [ValMatches] at hm
        | vstrct ws => simp [ValMatches] at hm
        | vunsup => simp [ValMatches] at hm
      | boolean =>
        cases v with
        | vbool b => exact ⟨(fun n h => nomatch h), by simpa [valsInRange] using hr⟩
        | vstr s => simp [ValMatches] at hm
        | vint n => simp [ValMatches] at hm
        | vnil => simp [ValMatches] at hm
        | vptr w => simp [ValMatches] at hm
        | vstrct ws => simp [ValMatches] at hm
        | vunsup => simp [ValMatches] at hm
      | ptr t2 => simp [isScalar] at hsc1
      | strct fs2 => simp [isScalar] at hsc1
      | unsupported => simp [isScalar] at hsc1
    have hnotstruct : ∀ (fs2 : Fields) (ws2 : Vals),
        ¬ (t = Ty.strct fs2 ∧ zeroVal t = Val.vstrct ws2) := by
      rintro fs2 ws2 ⟨rfl, -⟩
      simp [isScalar] at hsc1
    rw [tags_cons_scalar tag ex t rest hsc1] at hnd
    have hzeros : zeroVals (Fields.cons tag ex t rest) =
        Vals.cons (zeroVal t) (zeroVals rest) := rfl
    rw [hzeros, unmarshalFields_cons_notStruct (entriesOf (Fields.cons tag ex t rest)
      (Vals.cons v vs)) tag ex t (zeroVal t) rest (zeroVals rest) hnotstruct]
    by_cases h1 : tag = ""
    · have hes : entriesOf (Fields.cons tag ex t rest) (Vals.cons v vs) =
          entriesOf rest vs := by
        simp [entriesOf, if_pos h1]
      simp only [if_pos h1, List.nil_append] at hnd
      have hts2 : tagStep (entriesOf rest vs) tag ex t (zeroVal t) =
          StepRes.next (entriesOf rest vs) (zeroVal t) := by
        simp [tagStep, h1]
      rw [hes, hts2]
      simp only
      rw [unmarshalFields_decode rest vs hm.2 hsc3 hnd hrng.2]
      simp [decodedVals, if_pos h1]
    · have hex : ex = true := by
        rcases Bool.or_eq_true_iff.mp hsc2 with hc | hc
        · exact absurd (of_decide_eq_true hc) h1
        · exact hc
      have hes : entriesOf (Fields.cons tag ex t rest) (Vals.cons v vs) =
          (tag, format v) :: entriesOf rest vs := by
        simp [entriesOf, if_neg h1]
      simp only [if_neg h1, List.singleton_append, List.nodup_cons] at hnd
      have hlook : lookupEnv ((tag, format v) :: entriesOf rest vs) tag = some (format v) := by
        simp [lookupEnv]
      have hset : set t (format v) = Except.ok v :=
        set_format_scalar t v hm.1 hsc1 hrng.1
      have hdel : deleteEnv ((tag, format v) :: entriesOf rest vs) tag = entriesOf rest vs := by
        simp only [deleteEnv, if_pos rfl]
        apply deleteEnv_of_lookup_none
        rw [lookupEnv_eq_none_iff, entriesOf_keys rest vs hm.2 hsc3]
        exact hnd.1
      have hts2 : tagStep ((tag, format v) :: entriesOf rest vs) tag ex t (zeroVal t) =
          StepRes.next (entriesOf rest vs) v := by
        rw [tagStep, if_neg h1, hex]
        simp only [Bool.true_eq_false, if_false, hlook, hset, hdel]
      rw [hes, hts2]
      simp only
      rw [unmarshalFields_decode rest vs hm.2 hsc3 hnd.2 hrng.2]
      simp [decodedVals, if_neg h1]

/-- C4: round trip on flat scalar records.  For a record all of whose
fields are built-in scalar types (string, bool, int), whose tagged
fields are exported and carry distinct single keys, and whose int values
are 64-bit representable (as every Go int is), Marshal produces exactly
one formatted entry per tagged field, and Unmarshal of that mapping into
a fresh zero record succeeds, consumes the whole mapping, and leaves
every tagged field equal to the corresponding field of the original
record (untagged fields stay zero). -/
theorem c4_round_trip (fs : Fields) (vs : Vals)
    (hm : ValsMatch fs vs = true) (hsc : scalarFields fs = true)
    (hnd : (tagsOfFields fs).Nodup) (hr : valsInRange fs vs = true) :
    Marshal (Arg.toPtr (Ty.strct fs) (Val.vstrct vs)) = Except.ok (entriesOf fs vs)
    ∧ Unmarshal (entriesOf fs vs) (Arg.toPtr (Ty.strct fs) (Val.vstrct (zeroVals fs))) =
      ([], Arg.toPtr (Ty.strct fs) (Val.vstrct (decodedVals fs vs)), none) := by
  constructor
  · have h := marshalFields_scalar fs vs [] hm hsc (by simp) hnd
    simpa [Marshal] using h
  · have h := unmarshalFields_decode fs vs hm hsc hnd hr
    simp only [Unmarshal, h]

/-- C4 witness: a record with a string field S, a bool field B, an int
field I (value negative) and an untagged extra field round-trips: Marshal
formats the three tagged entries and Unmarshal of them into a zero record
restores the three values exactly and consumes the mapping, via the
theorem at concrete inputs. -/
theorem c4_round_trip_witness :
    Marshal (Arg.toPtr
        (Ty.strct (Fields.cons "S" true Ty.str (Fields.cons "B" true Ty.boolean
          (Fields.cons "I" true Ty.int (Fields.cons "" true Ty.str Fields.nil)))))
        (Val.vstrct (Vals.cons (Val.vstr "hi") (Vals.cons (Val.vbool true)
          (Vals.cons (Val.vint (-5)) (Vals.cons (Val.vstr "extra") Vals.nil)))))) =
      Except.ok [("S", "hi"), ("B", "true"), ("I", "-5")]
    ∧ Unmarshal [("S", "hi"), ("B", "true"), ("I", "-5")]
        (Arg.toPtr
          (Ty.strct (Fields.cons "S" true Ty.str (Fields.cons "B" true Ty.boolean
            (Fields.cons "I" true Ty.int (Fields.cons "" true Ty.str Fields.nil)))))
          (Val.vstrct (Vals.cons (Val.vstr "") (Vals.cons (Val.vbool false)
            (Vals.cons (Val.vint 0) (Vals.cons (Val.vstr "") Vals.nil)))))) =
      ([], Arg.toPtr
          (Ty.strct (Fields.cons "S" true Ty.str (Fields.cons "B" true Ty.boolean
            (Fields.cons "I" true Ty.int (Fields.cons "" true Ty.str Fields.nil)))))
          (Val.vstrct (Vals.cons (Val.vstr "hi") (Vals.cons (Val.vbool true)
            (Vals.cons (Val.vint (-5)) (Vals.cons (Val.vstr "") Vals.nil))))), none) := by
  have h := c4_round_trip
    (Fields.cons "S" true Ty.str (Fields.cons "B" true Ty.boolean
      (Fields.cons "I" true Ty.int (Fields.cons "" true Ty.str Fields.nil))))
    (Vals.cons (Val.vstr "hi") (Vals.cons (Val.vbool true)
      (Vals.cons (Val.vint (-5)) (Vals.cons (Val.vstr "extra") Vals.nil))))
    (by decide) (by decide) (by decide) (by decide)
  constructor
  · rw [h.1]
    rfl
  · have h2 := h.2
    rw [show entriesOf
        (Fields.cons "S" true Ty.str (Fields.cons "B" true Ty.boolean
          (Fields.cons "I" true Ty.int (Fields.cons "" true Ty.str Fields.nil))))
        (Vals.cons (Val.vstr "hi") (Vals.cons (Val.vbool true)
          (Vals.cons (Val.vint (-5)) (Vals.cons (Val.vstr "extra") Vals.nil)))) =
      [("S", "hi"), ("B", "true"), ("I", "-5")] from rfl,
      show zeroVals
        (Fields.cons "S" true Ty.str (Fields.cons "B" true Ty.boolean
          (Fields.cons "I" true Ty.int (Fields.cons "" true Ty.str Fields.nil)))) =
      Vals.cons (Val.vstr "") (Vals.cons (Val.vbool false)
        (Vals.cons (Val.vint 0) (Vals.cons (Val.vstr "") Vals.nil))) from rfl,
      show decodedVals
        (Fields.cons "S" true Ty.str (Fields.cons "B" true Ty.boolean
          (Fields.cons "I" true Ty.int (Fields.cons "" true Ty.str Fields.nil))))
        (Vals.cons (Val.vstr "hi") (Vals.cons (Val.vbool true)
          (Vals.cons (Val.vint (-5)) (Vals.cons (Val.vstr "extra") Vals.nil)))) =
      Vals.cons (Val.vstr "hi") (Vals.cons (Val.vbool true)
        (Vals.cons (Val.vint (-5)) (Vals.cons (Val.vstr "") Vals.nil))) from rfl] at h2
    exact h2

end GoEnv
